import Mathlib

/-!
# contiguous.c : a sub-allocator inside one malloc'ed block

Shallow embedding of `src/contiguous.c` (`make_contiguous`, `cfree`, `cmalloc`).

Platform assumptions, all taken from the constants the source hard-codes
(`block + 16`, `bob - 32`): LP64, so `sizeof(struct contiguous) = 16`,
`sizeof(struct cnode) = 32`, pointers and `size_t` are 8 bytes; words are
stored little-endian; plain `char` is a signed 8-bit type whose increment
wraps from 127 to -128 (x86-64 with gcc or clang).

Memory is byte addressed.  The only object that exists is the block obtained
from `malloc`, the address range `[base, base + 16 + size)`.  Any access
outside it is undefined behaviour in C and is reported as `Err.fault`.
A failed `assert` is `Err.abort`.  The `while` loop of `cmalloc` that follows
`next` pointers takes a step bound; running out of it is `Err.fuel`.

Addresses and sizes are natural numbers.  The `int` sums `size + 32` are
computed exactly: for the values an `int` can hold the wrapped sum is negative
and is never equal to the counter either.
-/

namespace Contiguous

/-- Ways in which a call does not return to its caller. -/
inductive Err where
  | fault
  | abort
  | fuel
deriving DecidableEq, Repr

/-- The malloc'ed block: `struct contiguous` at `base`, followed by `size`
bytes of buffer.  `mem` gives the byte at every address. -/
structure Block where
  base : Nat
  size : Nat
  mem : Nat → Nat

def SIZEOF_CONTIGUOUS : Nat := 16

def SIZEOF_CNODE : Nat := 32

/-- The character `'$'` marking a free byte. -/
def FREE : Nat := 36

/-- The character `'9'` written over a fresh region. -/
def INIT : Nat := 57

/-- The bytes `[a, a + len)` lie inside the malloc'ed block. -/
def inBlock (s : Block) (a len : Nat) : Prop :=
  s.base ≤ a ∧ a + len ≤ s.base + SIZEOF_CONTIGUOUS + s.size

instance (s : Block) (a len : Nat) : Decidable (inBlock s a len) := by
  unfold inBlock; infer_instance

/-- Read of one `char` at address `a`. -/
def loadByte (s : Block) (a : Nat) : Except Err Nat :=
  if inBlock s a 1 then .ok (s.mem a % 256) else .error .fault

/-- Write of one `char` at address `a`. -/
def storeByte (s : Block) (a v : Nat) : Except Err Block :=
  if inBlock s a 1 then
    .ok { s with mem := fun x => if x = a then v % 256 else s.mem x }
  else .error .fault

/-- Little-endian value of the eight bytes at `a`. -/
def word (m : Nat → Nat) (a : Nat) : Nat :=
  m a % 256 + 256 * (m (a + 1) % 256 + 256 * (m (a + 2) % 256 + 256 * (m (a + 3) % 256
    + 256 * (m (a + 4) % 256 + 256 * (m (a + 5) % 256 + 256 * (m (a + 6) % 256
    + 256 * (m (a + 7) % 256)))))))

/-- Memory after the eight bytes at `a` receive the little-endian bytes of `v`. -/
def setWord (m : Nat → Nat) (a v : Nat) : Nat → Nat :=
  fun x => if a ≤ x ∧ x < a + 8 then v / 256 ^ (x - a) % 256 else m x

/-- Read of a pointer or `size_t` field at address `a`. -/
def loadWord (s : Block) (a : Nat) : Except Err Nat :=
  if inBlock s a 8 then .ok (word s.mem a) else .error .fault

/-- Write of a pointer or `size_t` field at address `a`. -/
def storeWord (s : Block) (a v : Nat) : Except Err Block :=
  if inBlock s a 8 then .ok { s with mem := setWord s.mem a v } else .error .fault

/-- Address of `block->first`. -/
def firstAt (s : Block) : Nat := s.base

/-- Address of `block->upper_limit`. -/
def upperLimitAt (s : Block) : Nat := s.base + 8

/-- Address of `node->nsize`. -/
def nsizeAt (node : Nat) : Nat := node

/-- Address of `node->prev`. -/
def prevAt (node : Nat) : Nat := node + 8

/-- Address of `node->next`. -/
def nextAt (node : Nat) : Nat := node + 16

/-- Address of `node->block`. -/
def blockAt (node : Nat) : Nat := node + 24

/-- The loop `for (i = 0; i < k; i++) *(a + i) = v;`, run from index `i`
with `k` iterations left. -/
def setBytes (v a : Nat) : Nat → Nat → Block → Except Err Block
  | 0, _, s => .ok s
  | k + 1, i, s => do
    let s1 ← storeByte s (a + i) v
    setBytes v a k (i + 1) s1

/-- Model of `make_contiguous(size)`.  `base` is what `malloc` returns
(`0` for `NULL`), `m0` the memory contents at that moment.  The result is the
returned pointer's block, or `none` for `NULL`. -/
def make_contiguous (base : Nat) (m0 : Nat → Nat) (size : Nat) : Except Err (Option Block) :=
  if ¬ size > 16 then .error .abort
  else if base = 0 then .ok none
  else do
    let s : Block := { base := base, size := size, mem := m0 }
    let s ← storeWord s (firstAt s) 0
    let s ← storeWord s (upperLimitAt s) (base + size + 16)
    let s ← setBytes FREE (base + 16) size 0 s
    pure (some s)

/-- Model of `cfree(p)`. -/
def cfree (s : Block) (p : Nat) : Except Err Block :=
  if p < 32 then .error .fault
  else do
    let bob := p
    let node := bob - 32
    let n ← loadWord s (nsizeAt node)
    -- the index is an `int`: a count of 2^31 or more overflows it
    if n ≥ 2 ^ 31 then .error .fault
    else do
      let s ← setBytes FREE bob n 0 s
      let blk ← loadWord s (blockAt node)
      let first ← loadWord s blk
      let s ←
        if first = node then do
          let nx ← loadWord s (nextAt node)
          let blk ← loadWord s (blockAt node)
          storeWord s blk nx
        else do
          let pv ← loadWord s (prevAt node)
          if pv ≠ 0 then do
            let nx ← loadWord s (nextAt node)
            let pv ← loadWord s (prevAt node)
            storeWord s (nextAt pv) nx
          else pure s
      let nx ← loadWord s (nextAt node)
      if nx ≠ 0 then do
        let pv ← loadWord s (prevAt node)
        let nx ← loadWord s (nextAt node)
        storeWord s (prevAt nx) pv
      else pure s

/-- The statement `count++` on a signed 8-bit `char`. -/
def charIncr (count : Int) : Int := if count = 127 then -128 else count + 1

/-- The scanning loop of `cmalloc`: `k` iterations left, `i` the current
address, `count` and `thingy` the loop variables.  Returns the final
`thingy`. -/
def scan (s : Block) (size : Nat) : Nat → Nat → Int → Nat → Except Err Nat
  | 0, _, _, thingy => .ok thingy
  | k + 1, i, count, thingy => do
    let thingy ←
      if count = (size : Int) + 32 then
        (if i - size = 0 then .error .abort else pure (i - size))
      else pure thingy
    let c ← loadByte s i
    scan s size k (i + 1) (if c = FREE then charIncr count else 0) thingy

/-- The loop `while ((char *)nexter < thingy && nexter->next != NULL)
nexter = nexter->next;`; `fuel` bounds the number of times the body runs. -/
def walk (s : Block) (thingy : Nat) : Nat → Nat → Except Err Nat
  | 0, nexter =>
    if nexter < thingy then do
      let nx ← loadWord s (nextAt nexter)
      if nx ≠ 0 then .error .fuel else pure nexter
    else pure nexter
  | f + 1, nexter =>
    if nexter < thingy then do
      let nx ← loadWord s (nextAt nexter)
      if nx ≠ 0 then walk s thingy f nx else pure nexter
    else pure nexter

/-- Lines 186-200 of `cmalloc`: the size field and the first `if` chain. -/
def linkHead (s : Block) (size thingy : Nat) : Except Err Block := do
  let node := thingy
  let s ← storeWord s (nsizeAt node) size
  let first ← loadWord s (firstAt s)
  if first = 0 then do
    let s ← storeWord s (firstAt s) node
    let s ← storeWord s (prevAt node) 0
    storeWord s (nextAt node) 0
  else if first > thingy then do
    let s ← storeWord s (prevAt node) 0
    let first ← loadWord s (firstAt s)
    let s ← storeWord s (nextAt node) first
    let first ← loadWord s (firstAt s)
    let s ← storeWord s (prevAt first) node
    storeWord s (firstAt s) node
  else if first < thingy then do
    let first ← loadWord s (firstAt s)
    storeWord s (prevAt node) first
  else pure s

/-- Lines 206-225 of `cmalloc`: the second `if` chain, after the walk
stopped at `nexter`. -/
def linkAt (s : Block) (thingy nexter : Nat) : Except Err Block := do
  let node := thingy
  if nexter = 0 then do
    let s ← storeWord s (prevAt node) 0
    storeWord s (nextAt node) 0
  else do
    let nx ← loadWord s (nextAt nexter)
    if nx = 0 ∧ nexter < thingy then do
      let s ← storeWord s (nextAt node) 0
      let s ← storeWord s (prevAt node) nexter
      storeWord s (nextAt nexter) node
    else do
      let pv ← loadWord s (prevAt nexter)
      if pv = 0 then do
        let s ← storeWord s (nextAt node) nexter
        let s ← storeWord s (prevAt node) 0
        storeWord s (prevAt nexter) node
      else do
        let s ← storeWord s (nextAt node) nexter
        let pv ← loadWord s (prevAt nexter)
        let s ← storeWord s (prevAt node) pv
        let s ← storeWord s (prevAt nexter) node
        let pv ← loadWord s (prevAt node)
        storeWord s (nextAt pv) node

/-- Model of `cmalloc(block, size)` for `size ≥ 0`.  `fuel` bounds the
iterations of the `while` loop.  The result is the block afterwards and the returned pointer
(`0` for `NULL`). -/
def cmalloc (fuel : Nat) (s : Block) (size : Nat) : Except Err (Block × Nat) := do
  let ul ← loadWord s (upperLimitAt s)
  let thingy ← scan s size (ul - (s.base + 16)) (s.base + 16) 0 0
  if thingy = 0 then pure (s, 0)
  else if thingy + size + SIZEOF_CNODE > ul then pure (s, 0)
  else do
    let s ← linkHead s size thingy
    let first ← loadWord s (firstAt s)
    let nexter ← walk s thingy fuel first
    let s ← linkAt s thingy nexter
    let s ← storeWord s (blockAt thingy) s.base
    let s ← setBytes INIT thingy size 0 s
    pure (s, thingy + SIZEOF_CNODE)

/-! ## Client sessions

Properties of "every arena reached from `create` by a sequence of calls" are
stated over the calls a client makes and the chunks it holds. -/

/-- One call of the client. -/
inductive Op where
  | allocate (size : Nat)
  | release (p : Nat)

/-- The block together with the chunks handed out and not yet released,
oldest first, each as (payload pointer, requested size). -/
structure Client where
  block : Block
  live : List (Nat × Nat)

/-- One call.  Releasing a pointer that is not live is undefined behaviour. -/
def call (fuel : Nat) (c : Client) : Op → Except Err Client
  | .allocate size => do
    let r ← cmalloc fuel c.block size
    pure { block := r.1, live := if r.2 = 0 then c.live else c.live ++ [(r.2, size)] }
  | .release p =>
    match c.live.find? (fun e => e.1 = p) with
    | none => .error .fault
    | some e => do
      let s ← cfree c.block p
      pure { block := s, live := c.live.erase e }

/-- A sequence of calls, left to right. -/
def calls (fuel : Nat) (c : Client) : List Op → Except Err Client
  | [] => .ok c
  | op :: ops => do
    let c1 ← call fuel c op
    calls fuel c1 ops

/-- The call `make_contiguous(size)` followed by `ops`; `none` when
`make_contiguous` returned `NULL`. -/
def session (fuel base : Nat) (m0 : Nat → Nat) (size : Nat) (ops : List Op) :
    Except Err (Option Client) := do
  match ← make_contiguous base m0 size with
  | none => pure none
  | some s =>
    let c ← calls fuel { block := s, live := [] } ops
    pure (some c)

/-- The byte ranges `[p - 32, p + n)` of two chunks do not intersect. -/
def disjointChunks (e1 e2 : Nat × Nat) : Prop :=
  e1.1 + e1.2 ≤ e2.1 - SIZEOF_CNODE ∨ e2.1 + e2.2 ≤ e1.1 - SIZEOF_CNODE

instance (e1 e2 : Nat × Nat) : Decidable (disjointChunks e1 e2) := by
  unfold disjointChunks; infer_instance

/-- What a client observes of a finished session: the live chunks. -/
def liveOf (r : Except Err (Option Client)) : Option (List (Nat × Nat)) :=
  r.toOption.join.map (fun c => c.live)

/-- What a client observes of a finished session: a word of the block. -/
def wordOf (r : Except Err (Option Client)) (a : Nat) : Option Nat :=
  r.toOption.join.bind (fun c => (loadWord c.block a).toOption)

/-- What a client observes of a finished session: a byte of the block. -/
def byteOf (r : Except Err (Option Client)) (a : Nat) : Option Nat :=
  r.toOption.join.bind (fun c => (loadByte c.block a).toOption)

/-! ## Notions used to state and prove the properties -/

/-- The value of the 8-bit counter after `r` increments from zero. -/
def wrap8 (r : Nat) : Int :=
  if r % 256 < 128 then ((r % 256 : Nat) : Int) else ((r % 256 : Nat) : Int) - 256

/-- Number of consecutive free bytes that end just before address `lo + j`,
counted inside `[lo, lo + j)`. -/
def runBefore (m : Nat → Nat) (lo : Nat) : Nat → Nat
  | 0 => 0
  | j + 1 => if m (lo + j) % 256 = FREE then runBefore m lo j + 1 else 0

/-- Length of the longest run of consecutive free bytes inside `[lo, lo + len)`. -/
def longestRun (m : Nat → Nat) (lo : Nat) : Nat → Nat
  | 0 => 0
  | j + 1 => max (longestRun m lo j) (runBefore m lo (j + 1))

/-- The block `make_contiguous(size)` returns when `malloc` gave `base`:
`first = NULL`, `upper_limit = base + size + 16`, the buffer filled with `'$'`. -/
def fresh (base : Nat) (m0 : Nat → Nat) (size : Nat) : Block :=
  { base := base
    size := size
    mem := fun x =>
      if base + 16 ≤ x ∧ x < base + 16 + size then FREE
      else setWord (setWord m0 base 0) (base + 8) (base + size + 16) x }

/-- Memory after `cmalloc` placed a node at `th` in a block at `b` whose list
was empty: the stores of lines 186-191, 216-218 and 226, then the loop of
lines 227-229. -/
def placedMem (m : Nat → Nat) (b th n : Nat) : Nat → Nat :=
  fun x => if th ≤ x ∧ x < th + n then INIT else
    setWord (setWord (setWord (setWord (setWord (setWord (setWord (setWord m
      th n) b th) (th + 8) 0) (th + 16) 0) (th + 16) th) (th + 8) 0) (th + 8) th) (th + 24) b x

/-- The scan, standing at `lo + j`, finds its counter equal to `size + 32`:
the run of free bytes that ends just before `lo + j`, counted modulo 256 in a
signed `char`, is `n + 32`. -/
def candidate (m : Nat → Nat) (lo n j : Nat) : Prop :=
  wrap8 (runBefore m lo j) = (n : Int) + 32

instance (m : Nat → Nat) (lo n j : Nat) : Decidable (candidate m lo n j) := by
  unfold candidate; infer_instance

/-- Memory after the loop of `cfree` wrote `'$'` over `[a, a + n)`. -/
def stomped (m : Nat → Nat) (a n : Nat) : Nat → Nat :=
  fun x => if a ≤ x ∧ x < a + n then FREE else m x

/-- Memory after `cfree(c + 32)` in a block at `b`: the loop of lines 141-143,
then the stores of lines 144-152. -/
def cfreeMem (m : Nat → Nat) (b c : Nat) : Nat → Nat :=
  let m1 := stomped m (c + 32) (word m c)
  let m2 :=
    if word m b = c then setWord m1 b (word m (c + 16))
    else if word m (c + 8) ≠ 0 then setWord m1 (word m (c + 8) + 16) (word m (c + 16))
    else m1
  if word m (c + 16) ≠ 0 then setWord m2 (word m (c + 16) + 8) (word m (c + 8)) else m2

/-- The nodes of `L`, in this order, form a doubly linked list that starts at
`cur` and ends with `next = NULL`; `pv` is what the `prev` field of the first
node holds. -/
def chain (m : Nat → Nat) : Nat → Nat → List Nat → Prop
  | _, cur, [] => cur = 0
  | pv, cur, a :: rest =>
    cur = a ∧ a ≠ 0 ∧ word m (prevAt a) = pv ∧ chain m a (word m (nextAt a)) rest

/-- Deciding `chain` on a given list. -/
def chainDecidable (m : Nat → Nat) : (L : List Nat) → (pv cur : Nat) → Decidable (chain m pv cur L)
  | [], _, _ => by unfold chain; infer_instance
  | a :: rest, pv, cur => by
    unfold chain
    have := chainDecidable m rest a (word m (nextAt a))
    infer_instance

instance (m : Nat → Nat) (pv cur : Nat) (L : List Nat) : Decidable (chain m pv cur L) :=
  chainDecidable m L pv cur

/-- The chunk list of the block is well formed and its headers are intact:
following `next` from `first` visits exactly the nodes of `L`, in this order,
without repetition, with `prev` the node before (`NULL` for the first); every
chunk lies in the usable region, has a size that fits an `int` and the block
as its owner; no two chunks overlap. -/
def wellFormed (s : Block) (L : List Nat) : Prop :=
  chain s.mem 0 (word s.mem (firstAt s)) L ∧ L.Nodup
    ∧ (∀ a ∈ L, s.base + 16 ≤ a ∧ a + 32 + word s.mem (nsizeAt a) ≤ s.base + 16 + s.size
        ∧ word s.mem (nsizeAt a) < 2 ^ 31 ∧ word s.mem (blockAt a) = s.base)
    ∧ ∀ a ∈ L, ∀ a2 ∈ L, a ≠ a2 →
        a + 32 + word s.mem (nsizeAt a) ≤ a2 ∨ a2 + 32 + word s.mem (nsizeAt a2) ≤ a

instance (s : Block) (L : List Nat) : Decidable (wellFormed s L) := by
  unfold wellFormed; infer_instance

/-- A block of 240 usable bytes at 4096 that holds three linked chunks: headers
at 4144, 4200 and 4260 with payloads of 8, 16 and 0 bytes. -/
def threeChunks : Block :=
  { base := 4096
    size := 240
    mem := List.foldl (fun m (w : Nat × Nat) => setWord m w.1 w.2) (fresh 4096 (fun _ => 0) 240).mem
      [(4096, 4144),
       (4144, 8), (4152, 0), (4160, 4200), (4168, 4096),
       (4200, 16), (4208, 4144), (4216, 4260), (4224, 4096),
       (4260, 0), (4268, 4200), (4276, 0), (4284, 4096)] }

/-! ## The scanning loop -/

theorem charIncr_wrap8 (r : Nat) : charIncr (wrap8 r) = wrap8 (r + 1) := by
  unfold charIncr wrap8
  split <;> split <;> split <;> omega

theorem runBefore_le (m : Nat → Nat) (lo : Nat) : ∀ j, runBefore m lo j ≤ j
  | 0 => by simp [runBefore]
  | j + 1 => by
    have := runBefore_le m lo j
    unfold runBefore; split <;> omega

theorem runBefore_le_longestRun (m : Nat → Nat) (lo : Nat) :
    ∀ len j, j ≤ len → runBefore m lo j ≤ longestRun m lo len
  | 0, j, h => by
    have : j = 0 := by omega
    subst this; simp [runBefore]
  | len + 1, j, h => by
    unfold longestRun
    by_cases e : j = len + 1
    · subst e; exact le_max_right _ _
    · exact le_trans (runBefore_le_longestRun m lo len j (by omega)) (le_max_left _ _)

/-- The counter equals `size + 32` only after at least `size + 32` free
bytes, and only for `size ≤ 95`. -/
theorem wrap8_eq_imp (r n : Nat) (h : wrap8 r = (n : Int) + 32) : n + 32 ≤ r ∧ n + 32 ≤ 127 := by
  unfold wrap8 at h
  split at h <;> omega

theorem loadByte_ok (s : Block) (a : Nat) (h : inBlock s a 1) :
    loadByte s a = .ok (s.mem a % 256) := by
  simp [loadByte, h]

/-- One iteration of the scanning loop, with the counter written as a
function of the run of free bytes before the current address. -/
theorem scan_step (s : Block) (n lo k j th : Nat) (h : inBlock s (lo + j) 1) :
    scan s n (k + 1) (lo + j) (wrap8 (runBefore s.mem lo j)) th
      = scan s n k (lo + (j + 1)) (wrap8 (runBefore s.mem lo (j + 1)))
          (if wrap8 (runBefore s.mem lo j) = (n : Int) + 32 then lo + j - n else th) := by
  rw [scan, loadByte_ok s _ h]
  have e : (if s.mem (lo + j) % 256 = FREE then charIncr (wrap8 (runBefore s.mem lo j)) else 0)
      = wrap8 (runBefore s.mem lo (j + 1)) := by
    rw [runBefore.eq_2]
    split
    · rw [charIncr_wrap8]
    · rfl
  by_cases hc : wrap8 (runBefore s.mem lo j) = (n : Int) + 32
  · have h1 := wrap8_eq_imp _ _ hc
    have h2 := runBefore_le s.mem lo j
    have h3 : lo + j - n ≠ 0 := by omega
    simp [hc, h3, bind, Except.bind, pure, Except.pure, Nat.add_assoc] at e ⊢
    rw [e]
  · simp [hc, bind, Except.bind, pure, Except.pure, Nat.add_assoc] at e ⊢
    rw [e]

theorem scan_fault (s : Block) (n k i th : Nat) (c : Int) (h : ¬ inBlock s i 1) (r : Nat) :
    scan s n (k + 1) i c th ≠ .ok r := by
  rw [scan]
  simp only [loadByte, h, if_false, bind, Except.bind, pure, Except.pure]
  split <;> simp
  split <;> simp

/-- Without a position where the counter equals `size + 32`, the scan leaves
`thingy` as it was. -/
theorem scan_no_match (s : Block) (n lo : Nat) : ∀ k j th,
    (∀ x, j ≤ x → x < j + k → inBlock s (lo + x) 1) →
    (∀ x, j ≤ x → x < j + k → wrap8 (runBefore s.mem lo x) ≠ (n : Int) + 32) →
    scan s n k (lo + j) (wrap8 (runBefore s.mem lo j)) th = .ok th
  | 0, _, _, _, _ => by simp [scan]
  | k + 1, j, th, hb, hm => by
    rw [scan_step s n lo k j th (hb j (le_refl _) (by omega)), if_neg (hm j (le_refl _) (by omega))]
    exact scan_no_match s n lo k (j + 1) th (fun x h1 h2 => hb x (by omega) (by omega))
      (fun x h1 h2 => hm x (by omega) (by omega))

/-- The scan returns the candidate of the last position where the counter
equals `size + 32`. -/
theorem scan_last_match (s : Block) (n lo q : Nat) : ∀ k j th,
    (∀ x, j ≤ x → x < j + k → inBlock s (lo + x) 1) →
    j ≤ q → q < j + k → wrap8 (runBefore s.mem lo q) = (n : Int) + 32 →
    (∀ x, q < x → x < j + k → wrap8 (runBefore s.mem lo x) ≠ (n : Int) + 32) →
    scan s n k (lo + j) (wrap8 (runBefore s.mem lo j)) th = .ok (lo + q - n)
  | 0, _, _, _, _, _, _, _ => by omega
  | k + 1, j, th, hb, h1, h2, hq, hm => by
    rw [scan_step s n lo k j th (hb j (le_refl _) (by omega))]
    by_cases e : j = q
    · subst e
      rw [if_pos hq]
      exact scan_no_match s n lo k (j + 1) _ (fun x h1 h2 => hb x (by omega) (by omega))
        (fun x h1 h2 => hm x (by omega) (by omega))
    · exact scan_last_match s n lo q k (j + 1) _ (fun x h1 h2 => hb x (by omega) (by omega))
        (by omega) (by omega) hq (fun x h1 h2 => hm x (by omega) (by omega))

/-- Whatever the scan returns is the initial `thingy` or the candidate of a
position where the counter equals `size + 32`. -/
theorem scan_result (s : Block) (n lo : Nat) : ∀ k j th r,
    scan s n k (lo + j) (wrap8 (runBefore s.mem lo j)) th = .ok r →
    r = th ∨ ∃ q, j ≤ q ∧ q < j + k ∧ wrap8 (runBefore s.mem lo q) = (n : Int) + 32
      ∧ r = lo + q - n
  | 0, _, th, r, h => by
    simp [scan] at h; exact Or.inl h.symm
  | k + 1, j, th, r, h => by
    by_cases hb : inBlock s (lo + j) 1
    · rw [scan_step s n lo k j th hb] at h
      rcases scan_result s n lo k (j + 1) _ r h with h1 | ⟨q, h1, h2, h3, h4⟩
      · by_cases hc : wrap8 (runBefore s.mem lo j) = (n : Int) + 32
        · rw [if_pos hc] at h1
          exact Or.inr ⟨j, le_refl _, by omega, hc, h1⟩
        · rw [if_neg hc] at h1
          exact Or.inl h1
      · exact Or.inr ⟨q, by omega, by omega, h3, h4⟩
    · exact absurd h (scan_fault s n k _ th _ hb r)

/-- The scan as `cmalloc` starts it, at `base + 16` with counter zero. -/
theorem scan_start (s : Block) (n k th : Nat) :
    scan s n k (s.base + 16) 0 th
      = scan s n k (s.base + 16 + 0) (wrap8 (runBefore s.mem (s.base + 16) 0)) th := by
  simp [runBefore, wrap8]

/-! ## What a returning `cmalloc` did -/

/-- Either `cmalloc` changed nothing and returned `NULL`, or it placed a node
at the `thingy` the scan found and returned `thingy + 32`. -/
theorem cmalloc_ok (fuel : Nat) (s s1 : Block) (n p : Nat)
    (h : cmalloc fuel s n = .ok (s1, p)) :
    ∃ ul th, loadWord s (upperLimitAt s) = .ok ul
      ∧ scan s n (ul - (s.base + 16)) (s.base + 16) 0 0 = .ok th
      ∧ ((s1 = s ∧ p = 0) ∨ (th ≠ 0 ∧ th + n + 32 ≤ ul ∧ p = th + 32)) := by
  unfold cmalloc at h
  cases h1 : loadWord s (upperLimitAt s) with
  | error e => simp [h1, bind, Except.bind] at h
  | ok ul =>
    cases h2 : scan s n (ul - (s.base + 16)) (s.base + 16) 0 0 with
    | error e => simp [h1, h2, bind, Except.bind] at h
    | ok th =>
      refine ⟨ul, th, rfl, h2, ?_⟩
      simp only [h1, h2, bind, Except.bind, pure, Except.pure] at h
      by_cases c1 : th = 0
      · simp [c1] at h
        exact Or.inl ⟨h.1.symm, h.2.symm⟩
      · by_cases c2 : th + n + SIZEOF_CNODE > ul
        · simp [c1, c2] at h
          exact Or.inl ⟨h.1.symm, h.2.symm⟩
        · simp only [c1, c2, if_false] at h
          right
          refine ⟨c1, by simp [SIZEOF_CNODE] at c2; omega, ?_⟩
          revert h
          repeat' split
          all_goals (intro h; simp at h)
          all_goals exact h.2.symm

/-- When the scan finds no candidate, `cmalloc` returns `NULL` and leaves the
block as it was. -/
theorem cmalloc_null_of_scan (fuel : Nat) (s : Block) (n ul : Nat)
    (h1 : loadWord s (upperLimitAt s) = .ok ul)
    (h2 : scan s n (ul - (s.base + 16)) (s.base + 16) 0 0 = .ok 0) :
    cmalloc fuel s n = .ok (s, 0) := by
  unfold cmalloc
  simp [h1, h2, bind, Except.bind, pure, Except.pure]


/-! ## Loads and stores -/

theorem word_congr (m1 m2 : Nat → Nat) (a : Nat)
    (h : ∀ x, a ≤ x → x < a + 8 → m1 x = m2 x) : word m1 a = word m2 a := by
  unfold word
  rw [h a (by omega) (by omega), h (a + 1) (by omega) (by omega), h (a + 2) (by omega) (by omega),
    h (a + 3) (by omega) (by omega), h (a + 4) (by omega) (by omega),
    h (a + 5) (by omega) (by omega), h (a + 6) (by omega) (by omega),
    h (a + 7) (by omega) (by omega)]

theorem setWord_in (m : Nat → Nat) (a v j : Nat) (h : j < 8) :
    setWord m a v (a + j) = v / 256 ^ j % 256 := by
  have e : a + j - a = j := by omega
  simp [setWord, h, e]

theorem setWord_out (m : Nat → Nat) (a v x : Nat) (h : x < a ∨ a + 8 ≤ x) :
    setWord m a v x = m x := by
  have : ¬ (a ≤ x ∧ x < a + 8) := by omega
  simp [setWord, this]

theorem word_setWord_same (m : Nat → Nat) (a v : Nat) :
    word (setWord m a v) a = v % 2 ^ 64 := by
  unfold word
  have h0 := setWord_in m a v 0 (by omega)
  rw [Nat.add_zero] at h0
  rw [h0, setWord_in m a v 1 (by omega), setWord_in m a v 2 (by omega),
    setWord_in m a v 3 (by omega), setWord_in m a v 4 (by omega), setWord_in m a v 5 (by omega),
    setWord_in m a v 6 (by omega), setWord_in m a v 7 (by omega)]
  norm_num
  omega

theorem word_setWord_other (m : Nat → Nat) (a v b : Nat) (h : b + 8 ≤ a ∨ a + 8 ≤ b) :
    word (setWord m a v) b = word m b :=
  word_congr _ _ _ (fun x h1 h2 => setWord_out m a v x (by omega))

theorem setBytes_ok (v a : Nat) : ∀ k i (s : Block),
    (∀ x, i ≤ x → x < i + k → inBlock s (a + x) 1) →
    setBytes v a k i s
      = .ok { s with mem := fun x => if a + i ≤ x ∧ x < a + i + k then v % 256 else s.mem x }
  | 0, i, s, _ => by
    cases s
    simp only [setBytes, Except.ok.injEq, Block.mk.injEq, true_and]
    funext x
    have : ¬ (a + i ≤ x ∧ x < a + i) := by omega
    simp [this]
  | k + 1, i, s, h => by
    have hb := h i (le_refl _) (by omega)
    rw [setBytes]
    simp only [storeByte, hb, if_true, bind, Except.bind]
    have ih := setBytes_ok v a k (i + 1)
      { base := s.base, size := s.size, mem := fun x => if x = a + i then v % 256 else s.mem x }
      (fun x h1 h2 => h x (by omega) (by omega))
    rw [ih]
    simp only [Except.ok.injEq, Block.mk.injEq, true_and]
    funext x
    by_cases c1 : x = a + i
    · subst c1; simp
    · by_cases c2 : a + i ≤ x ∧ x < a + i + (k + 1)
      · have : a + (i + 1) ≤ x ∧ x < a + (i + 1) + k := by omega
        simp [c2, this]
      · have : ¬ (a + (i + 1) ≤ x ∧ x < a + (i + 1) + k) := by omega
        simp [c1, c2, this]

theorem make_contiguous_eq (base : Nat) (m0 : Nat → Nat) (size : Nat)
    (h1 : 16 < size) (h2 : base ≠ 0) :
    make_contiguous base m0 size = .ok (some (fresh base m0 size)) := by
  unfold make_contiguous
  have i1 : inBlock { base := base, size := size, mem := m0 } base 8 := by
    simp [inBlock, SIZEOF_CONTIGUOUS]; omega
  simp only [gt_iff_lt, h1, not_true_eq_false, if_false, h2, firstAt, upperLimitAt, storeWord, i1,
    if_true, bind, Except.bind, pure, Except.pure]
  have i2 : inBlock { base := base, size := size, mem := setWord m0 base 0 } (base + 8) 8 := by
    simp [inBlock, SIZEOF_CONTIGUOUS]
  simp only [i2, if_true]
  rw [setBytes_ok]
  · simp [fresh, FREE]
  · intro x _ hx
    simp [inBlock, SIZEOF_CONTIGUOUS]; omega

/-! ## A node placed into an empty list -/

theorem loadWord_mk (b sz : Nat) (m : Nat → Nat) (a : Nat) (h1 : b ≤ a) (h2 : a + 8 ≤ b + 16 + sz) :
    loadWord { base := b, size := sz, mem := m } a = .ok (word m a) := by
  simp [loadWord, inBlock, SIZEOF_CONTIGUOUS, h1, h2]

theorem storeWord_mk (b sz : Nat) (m : Nat → Nat) (a v : Nat) (h1 : b ≤ a)
    (h2 : a + 8 ≤ b + 16 + sz) :
    storeWord { base := b, size := sz, mem := m } a v
      = .ok { base := b, size := sz, mem := setWord m a v } := by
  simp [storeWord, inBlock, SIZEOF_CONTIGUOUS, h1, h2]

theorem walk_stop (s : Block) (th fuel nexter : Nat) (h : ¬ nexter < th) :
    walk s th fuel nexter = .ok nexter := by
  cases fuel <;> simp [walk, h, pure, Except.pure]

/-- On a block whose `first` is `NULL`, `cmalloc` places the node at the
`thingy` found by the scan; the memory afterwards is `placedMem`. -/
theorem cmalloc_empty (fuel b sz : Nat) (m : Nat → Nat) (n th : Nat)
    (hb : b + 16 + sz < 2 ^ 64)
    (hin : word m (b + 8) ≤ b + 16 + sz)
    (hfirst : word m b = 0)
    (hscan : scan { base := b, size := sz, mem := m } n (word m (b + 8) - (b + 16)) (b + 16) 0 0
      = .ok th)
    (hlo : b + 48 ≤ th) (hfit : th + n + 32 ≤ word m (b + 8)) :
    cmalloc fuel { base := b, size := sz, mem := m } n
      = .ok ({ base := b, size := sz, mem := placedMem m b th n }, th + 32) := by
  have h0 : th ≠ 0 := by omega
  have hfit2 : ¬ (th + n + SIZEOF_CNODE > word m (b + 8)) := by simp [SIZEOF_CNODE]; omega
  have hth : th % 2 ^ 64 = th := Nat.mod_eq_of_lt (by omega)
  unfold cmalloc linkHead linkAt
  simp (disch := omega) only [upperLimitAt, firstAt, nsizeAt, prevAt, nextAt, blockAt, loadWord_mk,
    storeWord_mk, bind, Except.bind, pure, Except.pure, hscan, h0, if_false, hfit2,
    word_setWord_other, word_setWord_same, hfirst, if_true, hth, walk_stop, lt_irrefl,
    not_false_eq_true, and_false, Nat.zero_mod]
  rw [setBytes_ok]
  · simp [INIT]
    exact ⟨rfl, rfl⟩
  · intro x _ hx
    simp [inBlock, SIZEOF_CONTIGUOUS]; omega

/-! ## Fresh blocks and placed nodes -/

theorem fresh_free (base : Nat) (m0 : Nat → Nat) (size x : Nat)
    (h1 : base + 16 ≤ x) (h2 : x < base + 16 + size) : (fresh base m0 size).mem x = FREE := by
  simp [fresh, h1, h2]

theorem fresh_first (base : Nat) (m0 : Nat → Nat) (size : Nat) :
    word (fresh base m0 size).mem base = 0 := by
  have e : word (fresh base m0 size).mem base
      = word (setWord (setWord m0 base 0) (base + 8) (base + size + 16)) base :=
    word_congr _ _ _ (fun x h1 h2 => by
      have : ¬ (base + 16 ≤ x ∧ x < base + 16 + size) := by omega
      simp [fresh, this])
  rw [e, word_setWord_other _ _ _ _ (by omega), word_setWord_same]
  rfl

theorem fresh_upper_limit (base : Nat) (m0 : Nat → Nat) (size : Nat)
    (h : base + size + 16 < 2 ^ 64) :
    word (fresh base m0 size).mem (base + 8) = base + size + 16 := by
  have e : word (fresh base m0 size).mem (base + 8)
      = word (setWord (setWord m0 base 0) (base + 8) (base + size + 16)) (base + 8) :=
    word_congr _ _ _ (fun x h1 h2 => by
      have : ¬ (base + 16 ≤ x ∧ x < base + 16 + size) := by omega
      simp [fresh, this])
  rw [e, word_setWord_same, Nat.mod_eq_of_lt h]

theorem runBefore_all_free (m : Nat → Nat) (lo : Nat) :
    ∀ j, (∀ x, x < j → m (lo + x) % 256 = FREE) → runBefore m lo j = j
  | 0, _ => rfl
  | j + 1, h => by
    rw [runBefore, if_pos (h j (by omega)),
      runBefore_all_free m lo j (fun x hx => h x (by omega))]

theorem runBefore_after_used (m : Nat → Nat) (lo q : Nat) (hq : m (lo + q) % 256 ≠ FREE) :
    ∀ j, q < j → runBefore m lo j + q + 1 ≤ j
  | 0, h => by omega
  | j + 1, h => by
    rw [runBefore]
    by_cases e : j = q
    · subst e; rw [if_neg hq]; omega
    · have := runBefore_after_used m lo q hq j (by omega)
      split <;> omega

/-- A request of 96 bytes or more never makes the 8-bit counter equal to
`size + 32`, so `cmalloc` returns `NULL`. -/
theorem cmalloc_null_of_large (fuel : Nat) (s : Block) (n ul : Nat)
    (hul : loadWord s (upperLimitAt s) = .ok ul)
    (hin : ul ≤ s.base + 16 + s.size) (h : 96 ≤ n) :
    cmalloc fuel s n = .ok (s, 0) := by
  apply cmalloc_null_of_scan fuel s n ul hul
  rw [scan_start]
  apply scan_no_match
  · intro x _ hx
    simp only [inBlock, SIZEOF_CONTIGUOUS]
    omega
  · intro x _ hx hc
    have h1 := wrap8_eq_imp _ _ hc
    omega

theorem loadWord_fresh_upper_limit (base : Nat) (m0 : Nat → Nat) (size : Nat)
    (h : base + size + 16 < 2 ^ 64) :
    loadWord (fresh base m0 size) (upperLimitAt (fresh base m0 size)) = .ok (base + size + 16) := by
  have := fresh_upper_limit base m0 size h
  simp only [fresh] at this
  simp only [fresh, upperLimitAt]
  rw [loadWord_mk _ _ _ _ (by omega) (by omega), this]

theorem loadWord_fresh_first (base : Nat) (m0 : Nat → Nat) (size : Nat) :
    loadWord (fresh base m0 size) (firstAt (fresh base m0 size)) = .ok 0 := by
  have := fresh_first base m0 size
  simp only [fresh] at this
  simp only [fresh, firstAt]
  rw [loadWord_mk _ _ _ _ (by omega) (by omega), this]

theorem placedMem_frame (m : Nat → Nat) (b th n x : Nat)
    (h1 : x < th ∨ th + 32 ≤ x) (h2 : x < th ∨ th + n ≤ x) (h3 : x < b ∨ b + 8 ≤ x) :
    placedMem m b th n x = m x := by
  have c : ¬ (th ≤ x ∧ x < th + n) := by omega
  simp only [placedMem, c, if_false]
  rw [setWord_out _ _ _ _ (by omega), setWord_out _ _ _ _ (by omega),
    setWord_out _ _ _ _ (by omega), setWord_out _ _ _ _ (by omega),
    setWord_out _ _ _ _ (by omega), setWord_out _ _ _ _ (by omega),
    setWord_out _ _ _ _ (by omega), setWord_out _ _ _ _ (by omega)]

theorem placedMem_stamped (m : Nat → Nat) (b th n x : Nat) (h1 : th ≤ x) (h2 : x < th + n) :
    placedMem m b th n x = INIT := by
  simp [placedMem, h1, h2]

theorem placedMem_zero_size (m : Nat → Nat) (b th : Nat) (h : b + 8 ≤ th) :
    placedMem m b th 0 th = 0 := by
  have c : ¬ (th ≤ th ∧ th < th + 0) := by omega
  simp only [placedMem, c, if_false]
  rw [setWord_out _ _ _ _ (by omega), setWord_out _ _ _ _ (by omega),
    setWord_out _ _ _ _ (by omega), setWord_out _ _ _ _ (by omega),
    setWord_out _ _ _ _ (by omega), setWord_out _ _ _ _ (by omega),
    setWord_out _ _ _ _ (by omega)]
  have := setWord_in m th 0 0 (by omega)
  simpa using this

theorem wrap8_small (r : Nat) (h : r < 128) : wrap8 r = (r : Int) := by
  unfold wrap8
  split <;> omega

/-- On a fresh block with room for exactly one candidate position the scan
returns `base + 48`. -/
theorem scan_fresh (base : Nat) (m0 : Nat → Nat) (U n : Nat)
    (h1 : n + 32 < U) (h2 : U ≤ n + 288) (h3 : n ≤ 95) :
    scan (fresh base m0 U) n U (base + 16) 0 0 = .ok (base + 48) := by
  have hfree : ∀ j, j ≤ U → runBefore (fresh base m0 U).mem (base + 16) j = j := by
    intro j hj
    apply runBefore_all_free
    intro x hx
    rw [fresh_free base m0 U _ (by omega) (by omega)]
    rfl
  have key := scan_last_match (fresh base m0 U) n (base + 16) (n + 32) U 0 0
    (fun x _ hx => by simp [inBlock, fresh, SIZEOF_CONTIGUOUS]; omega)
    (by omega) (by omega)
    (by rw [hfree _ (by omega), wrap8_small _ (by omega)]; push_cast; ring)
    (fun x hx1 hx2 hc => by
      rw [hfree _ (by omega)] at hc
      unfold wrap8 at hc
      split at hc <;> omega)
  have e : base + 16 + (n + 32) - n = base + 48 := by omega
  rw [e] at key
  rw [← key]
  exact scan_start (fresh base m0 U) n U 0

/-- The first `cmalloc` on a fresh block with room for exactly one candidate
position places the node at `base + 48`. -/
theorem cmalloc_fresh (fuel base : Nat) (m0 : Nat → Nat) (U n : Nat)
    (haddr : base + U + 16 < 2 ^ 64) (h1 : n + 64 ≤ U) (h2 : U ≤ n + 288) (h3 : n ≤ 95) :
    cmalloc fuel (fresh base m0 U) n
      = .ok ({ base := base, size := U,
               mem := placedMem (fresh base m0 U).mem base (base + 48) n }, base + 80) := by
  have hul := fresh_upper_limit base m0 U haddr
  have hsub : base + U + 16 - (base + 16) = U := by omega
  apply cmalloc_empty fuel base U (fresh base m0 U).mem n (base + 48)
  · omega
  · omega
  · exact fresh_first base m0 U
  · rw [hul, hsub]
    exact scan_fresh base m0 U n (by omega) (by omega) (by omega)
  · omega
  · omega

/-! ## More on the scan and on fresh blocks -/

/-- The `thingy` the scan returns is the initial one when no position is a
candidate, and otherwise comes from the last candidate position. -/
theorem scan_last (s : Block) (n lo : Nat) : ∀ k j th r,
    scan s n k (lo + j) (wrap8 (runBefore s.mem lo j)) th = .ok r →
    (r = th ∧ ∀ x, j ≤ x → x < j + k → ¬ candidate s.mem lo n x)
      ∨ ∃ q, j ≤ q ∧ q < j + k ∧ candidate s.mem lo n q ∧ r = lo + q - n
          ∧ ∀ x, q < x → x < j + k → ¬ candidate s.mem lo n x
  | 0, _, th, r, h => by
    simp [scan] at h
    exact Or.inl ⟨h.symm, fun x h1 h2 => by omega⟩
  | k + 1, j, th, r, h => by
    by_cases hb : inBlock s (lo + j) 1
    · rw [scan_step s n lo k j th hb] at h
      rcases scan_last s n lo k (j + 1) _ r h with ⟨h1, h2⟩ | ⟨q, h1, h2, h3, h4, h5⟩
      · by_cases hc : wrap8 (runBefore s.mem lo j) = (n : Int) + 32
        · rw [if_pos hc] at h1
          exact Or.inr ⟨j, le_refl _, by omega, hc, h1, fun x hx1 hx2 => h2 x (by omega) (by omega)⟩
        · rw [if_neg hc] at h1
          refine Or.inl ⟨h1, fun x hx1 hx2 => ?_⟩
          by_cases e : x = j
          · subst e; exact hc
          · exact h2 x (by omega) (by omega)
      · exact Or.inr ⟨q, by omega, by omega, h3, h4, fun x hx1 hx2 => h5 x hx1 (by omega)⟩
    · exact absurd h (scan_fault s n k _ th _ hb r)

theorem loadByte_fresh (base : Nat) (m0 : Nat → Nat) (size x : Nat)
    (h1 : base + 16 ≤ x) (h2 : x < base + 16 + size) :
    loadByte (fresh base m0 size) x = .ok FREE := by
  rw [loadByte_ok _ _ (by simp [inBlock, fresh, SIZEOF_CONTIGUOUS]; omega),
    fresh_free base m0 size x h1 h2]
  rfl

theorem runBefore_fresh (base : Nat) (m0 : Nat → Nat) (U j : Nat) (hj : j ≤ U) :
    runBefore (fresh base m0 U).mem (base + 16) j = j := by
  apply runBefore_all_free
  intro x hx
  rw [fresh_free base m0 U _ (by omega) (by omega)]
  rfl

/-- On a fresh block the scan returns the candidate of the last position
`n + 32 + 256 * K` below the limit. -/
theorem scan_fresh_last (base : Nat) (m0 : Nat → Nat) (U n K : Nat)
    (h1 : n + 32 + 256 * K < U) (h2 : U ≤ n + 32 + 256 * (K + 1)) (h3 : n ≤ 95) :
    scan (fresh base m0 U) n U (base + 16) 0 0 = .ok (base + 48 + 256 * K) := by
  have key := scan_last_match (fresh base m0 U) n (base + 16) (n + 32 + 256 * K) U 0 0
    (fun x _ hx => by simp [inBlock, fresh, SIZEOF_CONTIGUOUS]; omega)
    (by omega) (by omega)
    (by
      rw [runBefore_fresh _ _ _ _ (by omega)]
      unfold wrap8
      split <;> omega)
    (fun x hx1 hx2 hc => by
      rw [runBefore_fresh _ _ _ _ (by omega)] at hc
      unfold wrap8 at hc
      split at hc <;> omega)
  have e : base + 16 + (n + 32 + 256 * K) - n = base + 48 + 256 * K := by omega
  rw [e] at key
  rw [← key]
  exact scan_start (fresh base m0 U) n U 0

/-- On a fresh block too short for `n + 32` counted bytes the scan finds
nothing. -/
theorem scan_fresh_none (base : Nat) (m0 : Nat → Nat) (U n : Nat) (h : U ≤ n + 32) :
    scan (fresh base m0 U) n U (base + 16) 0 0 = .ok 0 := by
  have key := scan_no_match (fresh base m0 U) n (base + 16) U 0 0
    (fun x _ hx => by simp [inBlock, fresh, SIZEOF_CONTIGUOUS]; omega)
    (fun x _ hx hc => by
      rw [runBefore_fresh _ _ _ _ (by omega)] at hc
      have := wrap8_eq_imp _ _ hc
      omega)
  rw [← key]
  exact scan_start (fresh base m0 U) n U 0

/-- When the candidate's header and payload would end after `upper_limit`,
`cmalloc` returns `NULL` and leaves the block as it was. -/
theorem cmalloc_null_of_overflow (fuel : Nat) (s : Block) (n ul th : Nat)
    (h1 : loadWord s (upperLimitAt s) = .ok ul)
    (h2 : scan s n (ul - (s.base + 16)) (s.base + 16) 0 0 = .ok th)
    (h3 : ul < th + n + 32) :
    cmalloc fuel s n = .ok (s, 0) := by
  unfold cmalloc
  have : th + n + SIZEOF_CNODE > ul := by simp [SIZEOF_CNODE]; omega
  simp [h1, h2, bind, Except.bind, pure, Except.pure, this]

/-! ## A walk that never ends -/

theorem toOption_eq_some {α : Type} (r : Except Err α) (a : α) (h : r.toOption = some a) :
    r = .ok a := by
  cases r with
  | error e => simp [Except.toOption] at h
  | ok b => simp [Except.toOption] at h; rw [h]

/-- A node below `thingy` whose `next` field points to the node itself keeps
the `while` loop of `cmalloc` running for ever. -/
theorem walk_cycle (s : Block) (th a : Nat) (h1 : a < th)
    (h2 : loadWord s (nextAt a) = .ok a) (h3 : a ≠ 0) :
    ∀ fuel, walk s th fuel a = .error .fuel
  | 0 => by simp [walk, h1, h2, h3, bind, Except.bind]
  | f + 1 => by
    rw [walk]
    simp only [h1, if_true, h2, bind, Except.bind, ne_eq, h3, not_false_eq_true]
    exact walk_cycle s th a h1 h2 h3 f

/-- On the block left by `make_contiguous(128)` and one `cmalloc(block, 0)`,
the next `cmalloc(block, 0)` never leaves its `while` loop. -/
theorem cmalloc_second_diverges (fuel : Nat) :
    cmalloc fuel { base := 4096, size := 128,
                   mem := placedMem (fresh 4096 (fun _ => 0) 128).mem 4096 4144 0 } 0
      = .error .fuel := by
  have hul : word (placedMem (fresh 4096 (fun _ => 0) 128).mem 4096 4144 0) 4104 = 4240 := by
    decide!
  have hscan : scan (⟨4096, 128, placedMem (fresh 4096 (fun _ => 0) 128).mem 4096 4144 0⟩ : Block)
      0 128 4112 0 0 = .ok 4208 := toOption_eq_some _ _ (by decide!)
  have hfirst : word (placedMem (fresh 4096 (fun _ => 0) 128).mem 4096 4144 0) 4096 = 4144 := by
    decide!
  have hnext : word (placedMem (fresh 4096 (fun _ => 0) 128).mem 4096 4144 0) 4160 = 4144 := by
    decide!
  have hw := fun s h2 => walk_cycle s 4208 4144 (by decide) h2 (by decide) fuel
  unfold cmalloc linkHead
  simp (disch := omega) only [upperLimitAt, firstAt, nsizeAt, prevAt, nextAt, blockAt,
    loadWord_mk, storeWord_mk, bind, Except.bind, pure, Except.pure, hul, hscan,
    word_setWord_other, hfirst, SIZEOF_CNODE]
  norm_num
  simp (disch := omega) only [loadWord_mk, word_setWord_other, hfirst]
  rw [hw]
  simp (disch := omega) only [nextAt, loadWord_mk, word_setWord_other, hnext]

/-! ## What `cfree` does -/

theorem word_lt (m : Nat → Nat) (a : Nat) : word m a < 2 ^ 64 := by
  unfold word
  omega

theorem setBytes_free (b sz : Nat) (m : Nat → Nat) (a n : Nat)
    (h1 : b ≤ a) (h2 : a + n ≤ b + 16 + sz) :
    setBytes FREE a n 0 { base := b, size := sz, mem := m }
      = .ok { base := b, size := sz, mem := stomped m a n } := by
  rw [setBytes_ok FREE a n 0 _ (fun x _ hx => by simp [inBlock, SIZEOF_CONTIGUOUS]; omega)]
  rfl

theorem word_stomped (m : Nat → Nat) (a n y : Nat) (h : y + 8 ≤ a ∨ a + n ≤ y) :
    word (stomped m a n) y = word m y :=
  word_congr _ _ _ (fun x h1 h2 => by
    have : ¬ (a ≤ x ∧ x < a + n) := by omega
    simp [stomped, this])

/-- What `cfree` does to a block whose node at `c` has an intact header and
neighbours whose link fields lie in the block, outside the chunk at `c`. -/
theorem cfree_eq (b sz : Nat) (m : Nat → Nat) (c : Nat)
    (hlo : b + 16 ≤ c) (hhi : c + 32 + word m c ≤ b + 16 + sz) (hint : word m c < 2 ^ 31)
    (hown : word m (c + 24) = b)
    (hprev : word m b ≠ c → word m (c + 8) ≠ 0 →
      (b ≤ word m (c + 8) + 16 ∧ word m (c + 8) + 24 ≤ b + 16 + sz)
        ∧ (word m (c + 8) + 24 ≤ c ∨ c + 32 + word m c ≤ word m (c + 8) + 16))
    (hnext : word m (c + 16) ≠ 0 →
      (b ≤ word m (c + 16) + 8 ∧ word m (c + 16) + 16 ≤ b + 16 + sz)
        ∧ (word m (c + 16) + 16 ≤ c ∨ c + 32 + word m c ≤ word m (c + 16) + 8)) :
    cfree { base := b, size := sz, mem := m } (c + 32)
      = .ok { base := b, size := sz, mem := cfreeMem m b c } := by
  have c32 : ¬ (c + 32 < 32) := by omega
  have e32 : c + 32 - 32 = c := by omega
  have hint2 : ¬ (word m c ≥ 2 ^ 31) := by omega
  have hpvlt := word_lt m (c + 8)
  have hnxlt := word_lt m (c + 16)
  have hpvm : word m (c + 8) % 2 ^ 64 = word m (c + 8) := Nat.mod_eq_of_lt hpvlt
  have hnxm : word m (c + 16) % 2 ^ 64 = word m (c + 16) := Nat.mod_eq_of_lt hnxlt
  unfold cfree cfreeMem
  simp (disch := omega) only [c32, if_false, e32, nsizeAt, prevAt, nextAt, blockAt,
    loadWord_mk, setBytes_free, word_stomped, hint2, hown, bind, Except.bind, pure, Except.pure]
  have hx0 : ∀ {α : Type} (t e : α), word m (c + 16) = 0 →
      (if word m (c + 16) ≠ 0 then t else e) = e := fun t e h => by simp [h]
  have hx1 : ∀ {α : Type} (t e : α), word m (c + 16) ≠ 0 →
      (if word m (c + 16) ≠ 0 then t else e) = t := fun t e h => by simp [h]
  have hp0 : ∀ {α : Type} (t e : α), word m (c + 8) = 0 →
      (if word m (c + 8) ≠ 0 then t else e) = e := fun t e h => by simp [h]
  have hp1 : ∀ {α : Type} (t e : α), word m (c + 8) ≠ 0 →
      (if word m (c + 8) ≠ 0 then t else e) = t := fun t e h => by simp [h]
  by_cases hf : word m b = c
  · simp only [if_pos hf]
    rw [storeWord_mk _ _ _ _ _ (by omega) (by omega)]
    simp only
    have w1 : word (setWord (stomped m (c + 32) (word m c)) b (word m (c + 16))) (c + 16)
        = word m (c + 16) := by
      rw [word_setWord_other _ _ _ _ (by omega), word_stomped _ _ _ _ (by omega)]
    have w2 : word (setWord (stomped m (c + 32) (word m c)) b (word m (c + 16))) (c + 8)
        = word m (c + 8) := by
      rw [word_setWord_other _ _ _ _ (by omega), word_stomped _ _ _ _ (by omega)]
    rw [loadWord_mk _ _ _ _ (by omega) (by omega), loadWord_mk _ _ _ _ (by omega) (by omega)]
    simp only [w1, w2]
    by_cases hx : word m (c + 16) = 0
    · simp only [hx0 _ _ hx]
    · have hn := hnext hx
      simp only [hx1 _ _ hx]
      rw [storeWord_mk _ _ _ _ _ (by omega) (by omega)]
  · simp only [if_neg hf]
    by_cases hp : word m (c + 8) = 0
    · simp only [hp0 _ _ hp]
      by_cases hx : word m (c + 16) = 0
      · simp only [hx0 _ _ hx]
      · have hn := hnext hx
        simp only [hx1 _ _ hx]
        rw [storeWord_mk _ _ _ _ _ (by omega) (by omega)]
    · have hpp := hprev hf hp
      simp only [hp1 _ _ hp]
      rw [storeWord_mk _ _ _ _ _ (by omega) (by omega)]
      simp only
      have w1 : word (setWord (stomped m (c + 32) (word m c)) (word m (c + 8) + 16)
          (word m (c + 16))) (c + 16) = word m (c + 16) := by
        rw [word_setWord_other _ _ _ _ (by omega), word_stomped _ _ _ _ (by omega)]
      have w2 : word (setWord (stomped m (c + 32) (word m c)) (word m (c + 8) + 16)
          (word m (c + 16))) (c + 8) = word m (c + 8) := by
        rw [word_setWord_other _ _ _ _ (by omega), word_stomped _ _ _ _ (by omega)]
      rw [loadWord_mk _ _ _ _ (by omega) (by omega), loadWord_mk _ _ _ _ (by omega) (by omega)]
      simp only [w1, w2]
      by_cases hx : word m (c + 16) = 0
      · simp only [hx0 _ _ hx]
      · have hn := hnext hx
        simp only [hx1 _ _ hx]
        rw [storeWord_mk _ _ _ _ _ (by omega) (by omega)]


theorem stomped_in (m : Nat → Nat) (a n x : Nat) (h1 : a ≤ x) (h2 : x < a + n) :
    stomped m a n x = FREE := by
  simp [stomped, h1, h2]

theorem stomped_out (m : Nat → Nat) (a n x : Nat) (h : x < a ∨ a + n ≤ x) :
    stomped m a n x = m x := by
  have : ¬ (a ≤ x ∧ x < a + n) := by omega
  simp [stomped, this]

/-- A byte that none of the stores of `cfree` addresses has, after `cfree`,
the value the loop left there. -/
theorem cfreeMem_apply (m : Nat → Nat) (b c x : Nat)
    (h1 : word m b = c → x < b ∨ b + 8 ≤ x)
    (h2 : word m b ≠ c → word m (c + 8) ≠ 0 →
      x < word m (c + 8) + 16 ∨ word m (c + 8) + 24 ≤ x)
    (h3 : word m (c + 16) ≠ 0 → x < word m (c + 16) + 8 ∨ word m (c + 16) + 16 ≤ x) :
    cfreeMem m b c x = stomped m (c + 32) (word m c) x := by
  unfold cfreeMem
  by_cases hx : word m (c + 16) = 0
  · by_cases hf : word m b = c
    · simp only [hx, hf, ne_eq, not_true_eq_false, if_false, if_true]
      rw [setWord_out _ _ _ _ (h1 hf)]
    · by_cases hp : word m (c + 8) = 0
      · simp only [hx, hf, hp, ne_eq, not_true_eq_false, if_false]
      · simp only [hx, hf, hp, ne_eq, not_true_eq_false, if_false, not_false_eq_true, if_true]
        rw [setWord_out _ _ _ _ (by have := h2 hf hp; omega)]
  · by_cases hf : word m b = c
    · simp only [hx, hf, ne_eq, not_false_eq_true, if_true]
      rw [setWord_out _ _ _ _ (by have := h3 hx; omega), setWord_out _ _ _ _ (h1 hf)]
    · by_cases hp : word m (c + 8) = 0
      · simp only [hx, hf, hp, ne_eq, not_true_eq_false, if_false, not_false_eq_true, if_true]
        rw [setWord_out _ _ _ _ (by have := h3 hx; omega)]
      · simp only [hx, hf, hp, ne_eq, if_false, not_false_eq_true, if_true]
        rw [setWord_out _ _ _ _ (by have := h3 hx; omega),
          setWord_out _ _ _ _ (by have := h2 hf hp; omega)]

/-! ## Unlinking a node -/

theorem chain_congr (m m2 : Nat → Nat) : ∀ (L : List Nat) (pv cur : Nat),
    (∀ a ∈ L, word m2 (prevAt a) = word m (prevAt a) ∧ word m2 (nextAt a) = word m (nextAt a)) →
    chain m pv cur L → chain m2 pv cur L
  | [], _, _, _, h => h
  | a :: rest, pv, cur, hf, h => by
    obtain ⟨h1, h2, h3, h4⟩ := h
    have ha := hf a (List.mem_cons_self _ _)
    refine ⟨h1, h2, by rw [ha.1]; exact h3, ?_⟩
    rw [ha.2]
    exact chain_congr m m2 rest a _ (fun x hx => hf x (List.mem_cons_of_mem _ hx)) h4

theorem chain_ne_zero (m : Nat → Nat) : ∀ (L : List Nat) (pv cur : Nat),
    chain m pv cur L → ∀ a ∈ L, a ≠ 0
  | [], _, _, _, a, ha => by simp at ha
  | b :: rest, pv, cur, h, a, ha => by
    obtain ⟨_, h2, _, h4⟩ := h
    rcases List.mem_cons.1 ha with e | e
    · rw [e]; exact h2
    · exact chain_ne_zero m rest b _ h4 a e

/-- The `next` field of a node of the list is `NULL` or another node of the
list. -/
theorem chain_next (m : Nat → Nat) (c : Nat) : ∀ (L : List Nat) (pv cur : Nat),
    chain m pv cur L → L.Nodup → c ∈ L →
    word m (nextAt c) = 0 ∨ (word m (nextAt c) ∈ L ∧ word m (nextAt c) ≠ c)
  | [], _, _, _, _, hc => by simp at hc
  | b :: rest, pv, cur, h, hnd, hc => by
    obtain ⟨_, _, _, h4⟩ := h
    have hnd2 := List.nodup_cons.1 hnd
    by_cases e : b = c
    · subst e
      cases rest with
      | nil => exact Or.inl h4
      | cons d rest2 =>
        refine Or.inr ⟨by rw [h4.1]; simp, fun e2 => hnd2.1 ?_⟩
        rw [← e2, h4.1]
        simp
    · have hc2 : c ∈ rest := by
        rcases List.mem_cons.1 hc with e2 | e2
        · exact absurd e2.symm e
        · exact e2
      rcases chain_next m c rest b _ h4 hnd2.2 hc2 with h5 | h5
      · exact Or.inl h5
      · exact Or.inr ⟨List.mem_cons_of_mem _ h5.1, h5.2⟩

/-- The `prev` field of a node of the list: what precedes the list when the
node is its first, another node of the list otherwise. -/
theorem chain_prev (m : Nat → Nat) (c : Nat) : ∀ (L : List Nat) (pv cur : Nat),
    chain m pv cur L → c ∈ L →
    (cur = c ∧ word m (prevAt c) = pv)
      ∨ (cur ≠ c ∧ word m (prevAt c) ∈ L ∧ word m (prevAt c) ≠ c)
  | [], _, _, _, hc => by simp at hc
  | b :: rest, pv, cur, h, hc => by
    obtain ⟨h1, _, h3, h4⟩ := h
    by_cases e : b = c
    · subst e
      exact Or.inl ⟨h1, h3⟩
    · have hc2 : c ∈ rest := by
        rcases List.mem_cons.1 hc with e2 | e2
        · exact absurd e2.symm e
        · exact e2
      refine Or.inr ⟨by rw [h1]; exact e, ?_⟩
      rcases chain_prev m c rest b _ h4 hc2 with ⟨_, h6⟩ | ⟨_, h6, h7⟩
      · rw [h6]; exact ⟨List.mem_cons_self _ _, e⟩
      · exact ⟨List.mem_cons_of_mem _ h6, h7⟩

/-- Unlinking `c`: when the link fields of the other nodes change exactly as
`cfree` changes them, the list without `c` is linked again. -/
theorem chain_erase (m m2 : Nat → Nat) (c : Nat) : ∀ (L : List Nat) (pv0 cur : Nat),
    chain m pv0 cur L → L.Nodup → c ∈ L → pv0 ∉ L →
    (∀ a ∈ L, a ≠ c → word m2 (prevAt a)
      = if a = word m (nextAt c) then word m (prevAt c) else word m (prevAt a)) →
    (∀ a ∈ L, a ≠ c → word m2 (nextAt a)
      = if a = word m (prevAt c) then word m (nextAt c) else word m (nextAt a)) →
    chain m2 pv0 (if cur = c then word m (nextAt c) else cur) (L.erase c)
  | [], _, _, _, _, hc, _, _, _ => by simp at hc
  | a :: rest, pv0, cur, h, hnd, hc, hpv0, r1, r2 => by
    obtain ⟨h1, h2, h3, h4⟩ := h
    have hnd2 := List.nodup_cons.1 hnd
    by_cases e : a = c
    · subst e
      rw [List.erase_cons_head, if_pos h1]
      cases rest with
      | nil => exact h4
      | cons d rest2 =>
        obtain ⟨k1, k2, k3, k4⟩ := h4
        have hd : d ∈ a :: d :: rest2 := by simp
        have hda : d ≠ a := fun e2 => hnd2.1 (by rw [← e2]; simp)
        have hdpv : d ≠ word m (prevAt a) := fun e2 => hpv0 (by rw [← h3, ← e2]; exact hd)
        have hnd3 := List.nodup_cons.1 hnd2.2
        refine ⟨k1, k2, ?_, ?_⟩
        · rw [r1 d hd hda, if_pos k1.symm, h3]
        · rw [r2 d hd hda, if_neg hdpv]
          refine chain_congr m m2 rest2 d _ (fun x hx => ?_) k4
          have hx1 : x ∈ a :: d :: rest2 := by simp [hx]
          have hxa : x ≠ a := fun e2 => hnd2.1 (by rw [← e2]; simp [hx])
          have hxd : x ≠ d := fun e2 => hnd3.1 (by rw [← e2]; exact hx)
          have hxpv : x ≠ word m (prevAt a) := fun e2 => hpv0 (by rw [← h3, ← e2]; exact hx1)
          rw [r1 x hx1 hxa, r2 x hx1 hxa, if_neg (by rw [k1]; exact hxd), if_neg hxpv]
          exact ⟨rfl, rfl⟩
    · have hc2 : c ∈ rest := by
        rcases List.mem_cons.1 hc with e2 | e2
        · exact absurd e2.symm e
        · exact e2
      have hcur : cur ≠ c := by rw [h1]; exact e
      have hane : ¬ (a == c) = true := by simpa using e
      rw [List.erase_cons_tail hane, if_neg hcur, h1]
      have hamem : a ∈ a :: rest := List.mem_cons_self _ _
      have hanx : a ≠ word m (nextAt c) := by
        rcases chain_next m c rest a _ h4 hnd2.2 hc2 with h5 | h5
        · rw [h5]; exact h2
        · exact fun e2 => hnd2.1 (by rw [e2]; exact h5.1)
      refine ⟨rfl, h2, by rw [r1 a hamem e, if_neg hanx]; exact h3, ?_⟩
      have ih := chain_erase m m2 c rest a (word m (nextAt a)) h4 hnd2.2 hc2 hnd2.1
        (fun x hx hxc => r1 x (List.mem_cons_of_mem _ hx) hxc)
        (fun x hx hxc => r2 x (List.mem_cons_of_mem _ hx) hxc)
      rw [r2 a hamem e]
      rcases chain_prev m c rest a _ h4 hc2 with ⟨h5, h6⟩ | ⟨h5, h6⟩
      · rw [if_pos h5] at ih
        rw [if_pos h6.symm]
        exact ih
      · rw [if_neg h5] at ih
        rw [if_neg (fun e2 => hnd2.1 (by rw [e2]; exact h6.1))]
        exact ih


theorem word_cfreeMem_out (m : Nat → Nat) (b c y : Nat)
    (h0 : y + 8 ≤ c + 32 ∨ c + 32 + word m c ≤ y)
    (h1 : word m b = c → y + 8 ≤ b ∨ b + 8 ≤ y)
    (h2 : word m b ≠ c → word m (c + 8) ≠ 0 →
      y + 8 ≤ word m (c + 8) + 16 ∨ word m (c + 8) + 24 ≤ y)
    (h3 : word m (c + 16) ≠ 0 → y + 8 ≤ word m (c + 16) + 8 ∨ word m (c + 16) + 16 ≤ y) :
    word (cfreeMem m b c) y = word m y :=
  word_congr _ _ _ (fun x hx1 hx2 => by
    rw [cfreeMem_apply m b c x (fun h => by have := h1 h; omega)
      (fun k1 k2 => by have := h2 k1 k2; omega) (fun k => by have := h3 k; omega),
      stomped_out _ _ _ _ (by omega)])

theorem word_cfreeMem_prev (m : Nat → Nat) (b c : Nat) (hx : word m (c + 16) ≠ 0) :
    word (cfreeMem m b c) (word m (c + 16) + 8) = word m (c + 8) := by
  unfold cfreeMem
  simp only [hx, ne_eq, not_false_eq_true, if_true]
  rw [word_setWord_same, Nat.mod_eq_of_lt (word_lt m (c + 8))]

theorem word_cfreeMem_next (m : Nat → Nat) (b c : Nat) (hf : word m b ≠ c)
    (hp : word m (c + 8) ≠ 0)
    (hd : word m (c + 16) ≠ 0 →
      word m (c + 8) + 24 ≤ word m (c + 16) + 8 ∨ word m (c + 16) + 16 ≤ word m (c + 8) + 16) :
    word (cfreeMem m b c) (word m (c + 8) + 16) = word m (c + 16) := by
  unfold cfreeMem
  by_cases hx : word m (c + 16) = 0
  · simp only [hx, hf, hp, ne_eq, not_true_eq_false, if_false, not_false_eq_true, if_true]
    rw [word_setWord_same]
    rfl
  · simp only [hx, hf, hp, ne_eq, if_false, not_false_eq_true, if_true]
    rw [word_setWord_other _ _ _ _ (by have := hd hx; omega), word_setWord_same,
      Nat.mod_eq_of_lt (word_lt m (c + 16))]

theorem word_cfreeMem_first (m : Nat → Nat) (b c : Nat) (hf : word m b = c)
    (hd : word m (c + 16) ≠ 0 → b + 8 ≤ word m (c + 16) + 8 ∨ word m (c + 16) + 16 ≤ b) :
    word (cfreeMem m b c) b = word m (c + 16) := by
  unfold cfreeMem
  by_cases hx : word m (c + 16) = 0
  · simp only [hx, hf, ne_eq, not_true_eq_false, if_false, if_true]
    rw [word_setWord_same]
    rfl
  · simp only [hx, hf, ne_eq, not_false_eq_true, if_true]
    rw [word_setWord_other _ _ _ _ (by have := hd hx; omega), word_setWord_same,
      Nat.mod_eq_of_lt (word_lt m (c + 16))]


/-! ## The properties of the specification -/

/-- C1 (non-overlap) at a concrete session: after `make_contiguous(80)`,
`cmalloc(block, 10)` and `cmalloc(block, 0)` both return `block + 80`; the two
live chunks occupy `[block + 48, block + 90)` and `[block + 48, block + 80)`,
which intersect. -/
theorem nonoverlap_violated :
    liveOf (session 4 4096 (fun _ => 0) 80 [Op.allocate 10, Op.allocate 0])
        = some [(4176, 10), (4176, 0)]
      ∧ ¬ List.Pairwise disjointChunks [(4176, 10), (4176, 0)] := by
  constructor
  · decide!
  · decide

/-- C2 (address order, no cycles) at a concrete session: after
`make_contiguous(80)` and one `cmalloc(block, 0)` the only live chunk has its
header at `block + 48`, `first` points to it, and its `next` field points to
itself, so following `next` from `first` never reaches `NULL`. -/
theorem list_cycle_after_first_allocate :
    liveOf (session 4 4096 (fun _ => 0) 80 [Op.allocate 0]) = some [(4176, 0)]
      ∧ wordOf (session 4 4096 (fun _ => 0) 80 [Op.allocate 0]) 4096 = some 4144
      ∧ wordOf (session 4 4096 (fun _ => 0) 80 [Op.allocate 0]) (nextAt 4144) = some 4144 := by
  refine ⟨?_, ?_, ?_⟩ <;> decide!

/-- C3 (scenario): after `make_contiguous(1024)` the call `cmalloc(block, 100)`
returns `NULL` and changes nothing. -/
theorem scenario_first_allocate_null (m0 : Nat → Nat) (fuel : Nat) :
    ∃ s, make_contiguous 4096 m0 1024 = .ok (some s) ∧ cmalloc fuel s 100 = .ok (s, 0) :=
  ⟨fresh 4096 m0 1024, make_contiguous_eq 4096 m0 1024 (by omega) (by omega),
    cmalloc_null_of_large fuel _ 100 _ (loadWord_fresh_upper_limit 4096 m0 1024 (by norm_num))
      (by simp [fresh]) (by omega)⟩


/-- C4 (capacity boundary) at a concrete input: after `make_contiguous(80)`
the call `cmalloc(block, 80 - 32)` returns `NULL`; no chunk is live. -/
theorem capacity_boundary_fails :
    liveOf (session 0 4096 (fun _ => 0) 80 [Op.allocate 48]) = some [] := by
  decide!

/-- C4 (capacity boundary) as amended: on a fresh block of `U` usable bytes,
`64 ≤ U ≤ 159`, `cmalloc(block, U - 64)` returns `block + 80`, and every
following `cmalloc` of a positive size returns `NULL`. -/
theorem capacity_boundary_with_slack (base : Nat) (m0 : Nat → Nat) (U fuel : Nat)
    (hbase : base ≠ 0) (haddr : base + U + 16 < 2 ^ 64) (h1 : 64 ≤ U) (h2 : U ≤ 159) :
    ∃ s s1, make_contiguous base m0 U = .ok (some s)
      ∧ cmalloc fuel s (U - 64) = .ok (s1, base + 80)
      ∧ ∀ fuel2 n, 0 < n → cmalloc fuel2 s1 n = .ok (s1, 0) := by
  have hul := fresh_upper_limit base m0 U haddr
  have hsub : base + U + 16 - (base + 16) = U := by omega
  refine ⟨fresh base m0 U, _, make_contiguous_eq base m0 U (by omega) hbase,
    cmalloc_fresh fuel base m0 U (U - 64) haddr (by omega) (by omega) (by omega), ?_⟩
  intro fuel2 n hn
  have hul1 : word (placedMem (fresh base m0 U).mem base (base + 48) (U - 64)) (base + 8)
      = base + U + 16 := by
    rw [← hul]
    exact word_congr _ _ _ (fun x hx1 hx2 =>
      placedMem_frame _ _ _ _ _ (by omega) (by omega) (by omega))
  apply cmalloc_null_of_scan fuel2 _ n (base + U + 16)
  · simp only [upperLimitAt]
    rw [loadWord_mk _ _ _ _ (by omega) (by omega), hul1]
  · simp only [hsub]
    rw [scan_start]
    apply scan_no_match
    · intro x _ hx
      simp [inBlock, SIZEOF_CONTIGUOUS]; omega
    · intro x _ hx hc
      have h4 := (wrap8_eq_imp _ _ hc).1
      have h5 := runBefore_le (placedMem (fresh base m0 U).mem base (base + 48) (U - 64))
        (base + 16) x
      simp only at h4 h5
      by_cases c1 : x ≤ 32
      · omega
      · by_cases c2 : U = 64
        · have hz : placedMem (fresh base m0 U).mem base (base + 48) (U - 64) (base + 16 + 32) % 256
              ≠ FREE := by
            have e1 : U - 64 = 0 := by omega
            have e2 : base + 16 + 32 = base + 48 := by omega
            rw [e1, e2, placedMem_zero_size _ _ _ (by omega)]
            decide
          have := runBefore_after_used _ (base + 16) 32 hz x (by omega)
          omega
        · have hq : ∀ q, 32 ≤ q → q < 32 + (U - 64) →
              placedMem (fresh base m0 U).mem base (base + 48) (U - 64) (base + 16 + q) % 256
                ≠ FREE := by
            intro q hq1 hq2
            rw [placedMem_stamped _ _ _ _ _ (by omega) (by omega)]
            decide
          by_cases c3 : x ≤ 32 + (U - 64)
          · have := runBefore_after_used _ (base + 16) (x - 1) (hq _ (by omega) (by omega)) x
              (by omega)
            omega
          · have := runBefore_after_used _ (base + 16) (32 + (U - 64) - 1)
              (hq _ (by omega) (by omega)) x (by omega)
            omega

/-- C4 as amended, at `U = 80` with the block at 4096. -/
theorem capacity_boundary_with_slack_witness :
    (4096 ≠ 0 ∧ 4096 + 80 + 16 < 2 ^ 64 ∧ 64 ≤ 80 ∧ 80 ≤ 159)
      ∧ ∃ s s1, make_contiguous 4096 (fun _ => 0) 80 = .ok (some s)
        ∧ cmalloc 0 s (80 - 64) = .ok (s1, 4096 + 80)
        ∧ ∀ fuel2 n, 0 < n → cmalloc fuel2 s1 n = .ok (s1, 0) :=
  ⟨⟨by decide, by norm_num, by decide, by decide⟩,
    capacity_boundary_with_slack 4096 (fun _ => 0) 80 0 (by decide) (by norm_num) (by decide)
      (by decide)⟩

/-- C5 (round trip) at a concrete input: after `make_contiguous(80)`,
`p = cmalloc(block, 0)` and `cfree(p)`, `first` is `block + 48`, the released
node, where it was `NULL` before the `cmalloc`, and the byte at `block + 48`
is 0 where it was `'$'`. -/
theorem round_trip_fails :
    byteOf (session 0 4096 (fun _ => 0) 80 []) 4144 = some FREE
      ∧ wordOf (session 0 4096 (fun _ => 0) 80 []) 4096 = some 0
      ∧ liveOf (session 0 4096 (fun _ => 0) 80 [Op.allocate 0]) = some [(4176, 0)]
      ∧ byteOf (session 0 4096 (fun _ => 0) 80 [Op.allocate 0, Op.release 4176]) 4144 = some 0
      ∧ wordOf (session 0 4096 (fun _ => 0) 80 [Op.allocate 0, Op.release 4176]) 4096
          = some 4144 := by
  refine ⟨?_, ?_, ?_, ?_, ?_⟩ <;> decide!

/-- C6 (exhaustion): when the requested size is larger than the longest run
of free bytes in `[base + 16, upper_limit)`, `cmalloc` returns `NULL`.  The
`upper_limit` field is assumed to lie inside the malloc'ed block, as
`make_contiguous` sets it. -/
theorem allocate_exhausted (fuel : Nat) (s : Block) (n ul : Nat)
    (hul : loadWord s (upperLimitAt s) = .ok ul)
    (hin : ul ≤ s.base + 16 + s.size)
    (h : longestRun s.mem (s.base + 16) (ul - (s.base + 16)) < n) :
    cmalloc fuel s n = .ok (s, 0) := by
  apply cmalloc_null_of_scan fuel s n ul hul
  rw [scan_start]
  apply scan_no_match
  · intro x _ hx
    simp only [inBlock, SIZEOF_CONTIGUOUS]
    omega
  · intro x _ hx hc
    have h1 := wrap8_eq_imp _ _ hc
    have h2 := runBefore_le_longestRun s.mem (s.base + 16) (ul - (s.base + 16)) x (by omega)
    omega

/-- C6 on the block `make_contiguous(80)` returns at 4096: the longest free
run is 80 bytes and a request of 81 bytes returns `NULL`. -/
theorem allocate_exhausted_witness :
    (loadWord (fresh 4096 (fun _ => 0) 80) (upperLimitAt (fresh 4096 (fun _ => 0) 80))
        = .ok 4192
      ∧ longestRun (fresh 4096 (fun _ => 0) 80).mem (4096 + 16) (4192 - (4096 + 16)) < 81)
      ∧ cmalloc 0 (fresh 4096 (fun _ => 0) 80) 81 = .ok (fresh 4096 (fun _ => 0) 80, 0) :=
  have hul := loadWord_fresh_upper_limit 4096 (fun _ => 0) 80 (by norm_num)
  have hrun : longestRun (fresh 4096 (fun _ => 0) 80).mem (4096 + 16) (4192 - (4096 + 16)) < 81 :=
    by decide!
  ⟨⟨hul, hrun⟩,
    allocate_exhausted 0 (fresh 4096 (fun _ => 0) 80) 81 4192 hul (by norm_num [fresh]) hrun⟩

/-- C7 (failure atomicity): a `cmalloc` that returns `NULL` leaves the whole
block, header fields and every byte, as it was. -/
theorem allocate_failure_atomic (fuel : Nat) (s s1 : Block) (n : Nat)
    (h : cmalloc fuel s n = .ok (s1, 0)) : s1 = s := by
  obtain ⟨ul, th, _, _, h3 | h3⟩ := cmalloc_ok fuel s s1 n 0 h
  · exact h3.1
  · omega

/-- C7 on the block `make_contiguous(80)` returns at 4096, with a request of
100 bytes. -/
theorem allocate_failure_atomic_witness :
    cmalloc 0 (fresh 4096 (fun _ => 0) 80) 100 = .ok (fresh 4096 (fun _ => 0) 80, 0)
      ∧ fresh 4096 (fun _ => 0) 80 = fresh 4096 (fun _ => 0) 80 :=
  have h := cmalloc_null_of_large 0 (fresh 4096 (fun _ => 0) 80) 100 4192
    (loadWord_fresh_upper_limit 4096 (fun _ => 0) 80 (by norm_num)) (by norm_num [fresh])
    (by decide)
  ⟨h, allocate_failure_atomic 0 _ _ 100 h⟩

/-- C8 (in-bounds placement): when `cmalloc` returns a pointer `p`, the new
header at `p - 32` starts at or after `base + 16` and the chunk ends at or
before `upper_limit`. -/
theorem allocate_in_bounds (fuel : Nat) (s s1 : Block) (n p ul : Nat)
    (h : cmalloc fuel s n = .ok (s1, p)) (hp : p ≠ 0)
    (hul : loadWord s (upperLimitAt s) = .ok ul) :
    32 ≤ p ∧ s.base + 16 ≤ p - 32 ∧ p + n ≤ ul := by
  obtain ⟨ul1, th, h1, h2, h3 | ⟨h3, h4, h5⟩⟩ := cmalloc_ok fuel s s1 n p h
  · exact absurd h3.2 hp
  · rw [hul] at h1
    cases h1
    rw [scan_start] at h2
    rcases scan_result s n (s.base + 16) _ 0 0 th h2 with h6 | ⟨q, _, _, h6, h7⟩
    · exact absurd h6 h3
    · have h8 := wrap8_eq_imp _ _ h6
      have h9 := runBefore_le s.mem (s.base + 16) q
      omega

/-- C8 on the block `make_contiguous(80)` returns at 4096, with a request of
16 bytes: the pointer is 4176, the header starts at 4144 and the chunk ends at
4192. -/
theorem allocate_in_bounds_witness :
    (cmalloc 0 (fresh 4096 (fun _ => 0) 80) 16
        = .ok ({ base := 4096, size := 80,
                 mem := placedMem (fresh 4096 (fun _ => 0) 80).mem 4096 4144 16 }, 4176)
      ∧ loadWord (fresh 4096 (fun _ => 0) 80) (upperLimitAt (fresh 4096 (fun _ => 0) 80))
        = .ok 4192)
      ∧ 32 ≤ 4176 ∧ 4096 + 16 ≤ 4176 - 32 ∧ 4176 + 16 ≤ 4192 :=
  have hul := loadWord_fresh_upper_limit 4096 (fun _ => 0) 80 (by norm_num)
  have h := cmalloc_fresh 0 4096 (fun _ => 0) 80 16 (by norm_num) (by decide) (by decide)
    (by decide)
  ⟨⟨h, hul⟩, allocate_in_bounds 0 (fresh 4096 (fun _ => 0) 80) _ 16 4176 4192 h (by decide) hul⟩

/-- C9 (payload stamping) at a concrete input: after `make_contiguous(80)`,
`cmalloc(block, 10)` returns `p = block + 80`; the first payload byte at `p`
still holds `'$'`, while the `'9'` went to the first header byte at `p - 32`. -/
theorem payload_not_stamped :
    liveOf (session 0 4096 (fun _ => 0) 80 [Op.allocate 10]) = some [(4176, 10)]
      ∧ byteOf (session 0 4096 (fun _ => 0) 80 [Op.allocate 10]) 4176 = some FREE
      ∧ byteOf (session 0 4096 (fun _ => 0) 80 [Op.allocate 10]) (4176 - 32) = some INIT := by
  refine ⟨?_, ?_, ?_⟩ <;> decide!

/-- C10 (header size field) at a concrete input: after `make_contiguous(80)`,
`cmalloc(block, 10)` returns `p = block + 80` and the `nsize` field of the
header at `p - 32` is `0x3939393939393939`, not 10. -/
theorem size_field_overwritten :
    liveOf (session 0 4096 (fun _ => 0) 80 [Op.allocate 10]) = some [(4176, 10)]
      ∧ wordOf (session 0 4096 (fun _ => 0) 80 [Op.allocate 10]) (nsizeAt (4176 - 32))
          = some 0x3939393939393939 := by
  refine ⟨?_, ?_⟩ <;> decide!

/-- C11 (create postcondition): when `malloc` returns a block at `base` that
lies inside the 64-bit address space, `make_contiguous(size)` with `size > 16`
returns that block with `first = NULL`, `upper_limit = base + size + 16` and
every byte of `[base + 16, base + size + 16)` equal to `'$'`. -/
theorem create_postcondition (base : Nat) (m0 : Nat → Nat) (size : Nat)
    (hsize : 16 < size) (hbase : base ≠ 0) (haddr : base + size + 16 < 2 ^ 64) :
    ∃ s, make_contiguous base m0 size = .ok (some s)
      ∧ s.base = base
      ∧ loadWord s (firstAt s) = .ok 0
      ∧ loadWord s (upperLimitAt s) = .ok (base + size + 16)
      ∧ ∀ x, base + 16 ≤ x → x < base + size + 16 → loadByte s x = .ok FREE :=
  ⟨fresh base m0 size, make_contiguous_eq base m0 size hsize hbase, rfl,
    loadWord_fresh_first base m0 size, loadWord_fresh_upper_limit base m0 size haddr,
    fun x h1 h2 => loadByte_fresh base m0 size x h1 (by omega)⟩

/-- C11 at `size = 80` with the block at 4096. -/
theorem create_postcondition_witness :
    (16 < 80 ∧ 4096 ≠ 0 ∧ 4096 + 80 + 16 < 2 ^ 64)
      ∧ ∃ s, make_contiguous 4096 (fun _ => 0) 80 = .ok (some s)
        ∧ s.base = 4096
        ∧ loadWord s (firstAt s) = .ok 0
        ∧ loadWord s (upperLimitAt s) = .ok (4096 + 80 + 16)
        ∧ ∀ x, 4096 + 16 ≤ x → x < 4096 + 80 + 16 → loadByte s x = .ok FREE :=
  ⟨⟨by decide, by decide, by norm_num⟩,
    create_postcondition 4096 (fun _ => 0) 80 (by decide) (by decide) (by norm_num)⟩

/-- C12 (create precondition) at the input of the claim: `make_contiguous(20)`
passes `assert(size > 16)` and returns a block. -/
theorem create_20_passes :
    make_contiguous 4096 (fun _ => 0) 20 = .ok (some (fresh 4096 (fun _ => 0) 20))
      ∧ make_contiguous 4096 (fun _ => 0) 20 ≠ .error .abort := by
  have h := make_contiguous_eq 4096 (fun _ => 0) 20 (by decide) (by decide)
  exact ⟨h, by rw [h]; simp⟩

/-- C12 (create precondition) as amended: `make_contiguous(size)` fails its
assertion exactly for `size ≤ 16`, whatever `malloc` would return. -/
theorem create_precondition (base : Nat) (m0 : Nat → Nat) (size : Nat) :
    make_contiguous base m0 size = .error .abort ↔ size ≤ 16 := by
  constructor
  · intro h
    by_contra hc
    have hs : 16 < size := by omega
    by_cases hb : base = 0
    · simp [make_contiguous, hs, hb] at h
    · rw [make_contiguous_eq base m0 size hs hb] at h
      simp at h
  · intro h
    have : ¬ size > 16 := by omega
    simp [make_contiguous, this]

/-- C13 (release unlinks exactly one chunk): on a block whose chunk list `L`
is well formed with intact headers, `cfree(c + 32)` for a node `c` of the list
returns, and afterwards the list from `first` is `L` without `c`, the other
nodes in the same order, again well formed. -/
theorem release_unlinks (s : Block) (L : List Nat) (c : Nat)
    (hwf : wellFormed s L) (hc : c ∈ L) :
    ∃ s2, cfree s (c + 32) = .ok s2 ∧ wellFormed s2 (L.erase c) := by
  obtain ⟨b, sz, m⟩ := s
  obtain ⟨hch, hnd, hin, hdj⟩ := hwf
  have hz := chain_ne_zero m L 0 _ hch
  have hnx := chain_next m c L 0 _ hch hnd hc
  have hpv := chain_prev m c L 0 _ hch hc
  simp only [nsizeAt, prevAt, nextAt, blockAt, firstAt] at hch hin hdj hnx hpv
  have hcin := hin c hc
  -- the neighbours of `c`
  have nxL : word m (c + 16) ≠ 0 → word m (c + 16) ∈ L ∧ word m (c + 16) ≠ c := by
    intro h
    rcases hnx with h1 | h1
    · exact absurd h1 h
    · exact h1
  have pvL : word m b ≠ c → word m (c + 8) ∈ L ∧ word m (c + 8) ≠ c ∧ word m (c + 8) ≠ 0 := by
    intro h
    rcases hpv with h1 | h1
    · exact absurd h1.1 h
    · exact ⟨h1.2.1, h1.2.2, hz _ h1.2.1⟩
  have pv0 : word m b = c → word m (c + 8) = 0 := by
    intro h
    rcases hpv with h1 | h1
    · exact h1.2
    · exact absurd h h1.1
  -- `cfree` returns
  have hfree := cfree_eq b sz m c (by simpa using hcin.1) (by simpa using hcin.2.1) hcin.2.2.1
    hcin.2.2.2
    (fun k1 _ => by
      have h1 := pvL k1
      have h2 := hin _ h1.1
      have h3 := hdj _ h1.1 c hc h1.2.1
      simp only at h2 hcin
      omega)
    (fun k1 => by
      have h1 := nxL k1
      have h2 := hin _ h1.1
      have h3 := hdj _ h1.1 c hc h1.2
      simp only at h2 hcin
      omega)
  refine ⟨_, hfree, ?_⟩
  -- fields of the other nodes that `cfree` does not write
  have key : ∀ a ∈ L, a ≠ c → ∀ k, k + 8 ≤ 32 →
      (a = word m (c + 16) → k + 8 ≤ 8 ∨ 16 ≤ k) →
      (a = word m (c + 8) → k + 8 ≤ 16 ∨ 24 ≤ k) →
      word (cfreeMem m b c) (a + k) = word m (a + k) := by
    intro a ha hac k hk hk1 hk2
    have ha1 := hin a ha
    have ha2 := hdj a ha c hc hac
    simp only at ha1 hcin
    apply word_cfreeMem_out
    · omega
    · intro _; omega
    · intro k1 _
      have h1 := pvL k1
      by_cases e : a = word m (c + 8)
      · have := hk2 e; omega
      · have := hdj a ha _ h1.1 e; omega
    · intro k1
      have h1 := nxL k1
      by_cases e : a = word m (c + 16)
      · have := hk1 e; omega
      · have := hdj a ha _ h1.1 e; omega
  have r1 : ∀ a ∈ L, a ≠ c → word (cfreeMem m b c) (prevAt a)
      = if a = word m (nextAt c) then word m (prevAt c) else word m (prevAt a) := by
    intro a ha hac
    simp only [prevAt, nextAt]
    by_cases e : a = word m (c + 16)
    · rw [if_pos e, e]
      exact word_cfreeMem_prev m b c (by rw [← e]; exact hz a ha)
    · rw [if_neg e]
      exact key a ha hac 8 (by omega) (fun e2 => absurd e2 e) (fun _ => by omega)
  have r2 : ∀ a ∈ L, a ≠ c → word (cfreeMem m b c) (nextAt a)
      = if a = word m (prevAt c) then word m (nextAt c) else word m (nextAt a) := by
    intro a ha hac
    simp only [prevAt, nextAt]
    by_cases e : a = word m (c + 8)
    · rw [if_pos e, e]
      have hp : word m (c + 8) ≠ 0 := by rw [← e]; exact hz a ha
      have hf : word m b ≠ c := fun h => hp (pv0 h)
      refine word_cfreeMem_next m b c hf hp (fun k1 => ?_)
      have h1 := nxL k1
      by_cases e2 : word m (c + 8) = word m (c + 16)
      · omega
      · have := hdj _ (pvL hf).1 _ h1.1 e2; omega
    · rw [if_neg e]
      exact key a ha hac 16 (by omega) (fun _ => by omega) (fun e2 => absurd e2 e)
  have hhead : word (cfreeMem m b c) b = if word m b = c then word m (c + 16) else word m b := by
    by_cases hf : word m b = c
    · rw [if_pos hf]
      refine word_cfreeMem_first m b c hf (fun k1 => ?_)
      have h2 := hin _ (nxL k1).1
      simp only at h2
      omega
    · rw [if_neg hf]
      simp only at hcin
      apply word_cfreeMem_out
      · omega
      · intro h; exact absurd h hf
      · intro k1 _
        have h2 := hin _ (pvL k1).1
        simp only at h2
        omega
      · intro k1
        have h2 := hin _ (nxL k1).1
        simp only at h2
        omega
  have hsub : ∀ a ∈ L.erase c, a ∈ L ∧ a ≠ c := fun a ha =>
    ⟨List.mem_of_mem_erase ha, ((List.Nodup.mem_erase_iff hnd).1 ha).1⟩
  have hsize : ∀ a ∈ L, a ≠ c → word (cfreeMem m b c) a = word m a := fun a ha hac =>
    key a ha hac 0 (by omega) (fun _ => by omega) (fun _ => by omega)
  refine ⟨?_, hnd.erase c, ?_, ?_⟩
  · have := chain_erase m (cfreeMem m b c) c L 0 (word m b) hch hnd hc
      (fun h => hz 0 h rfl) r1 r2
    simp only [firstAt, nextAt] at this ⊢
    rw [hhead]
    exact this
  · intro a ha
    obtain ⟨ha1, ha2⟩ := hsub a ha
    have h1 := hin a ha1
    simp only [nsizeAt, blockAt] at h1 ⊢
    rw [hsize a ha1 ha2, key a ha1 ha2 24 (by omega) (fun _ => by omega) (fun _ => by omega)]
    exact h1
  · intro a ha a2 ha2 hne
    obtain ⟨h1, h2⟩ := hsub a ha
    obtain ⟨h3, h4⟩ := hsub a2 ha2
    simp only [nsizeAt]
    rw [hsize a h1 h2, hsize a2 h3 h4]
    exact hdj a h1 a2 h3 hne


/-- C13 on the block `threeChunks`, releasing the middle chunk. -/
theorem release_unlinks_witness :
    (wellFormed threeChunks [4144, 4200, 4260] ∧ 4200 ∈ [4144, 4200, 4260])
      ∧ ∃ s2, cfree threeChunks (4200 + 32) = .ok s2
        ∧ wellFormed s2 ([4144, 4200, 4260].erase 4200) :=
  ⟨⟨by decide!, by decide⟩,
    release_unlinks threeChunks [4144, 4200, 4260] 4200 (by decide!) (by decide)⟩

/-- C14 (release frame): for a node at `c` with an intact header (size field
`n` with the payload inside the block, owner field the block) whose
neighbours' link fields lie in the block outside the chunk, `cfree(c + 32)`
returns, the `n` payload bytes hold `'$'` afterwards, every byte outside the
payload that is not in `first` (written when `c` is first), in the `next`
field of `c->prev` (written otherwise) or in the `prev` field of `c->next` is
unchanged, and so are the 32 header bytes of the chunk. -/
theorem release_frame (s : Block) (c n pv nx : Nat)
    (hn : word s.mem (nsizeAt c) = n) (hpv : word s.mem (prevAt c) = pv)
    (hnx : word s.mem (nextAt c) = nx) (hown : word s.mem (blockAt c) = s.base)
    (hlo : s.base + 16 ≤ c) (hhi : c + 32 + n ≤ s.base + 16 + s.size) (hint : n < 2 ^ 31)
    (hprev : word s.mem (firstAt s) ≠ c → pv ≠ 0 →
      inBlock s (nextAt pv) 8 ∧ (nextAt pv + 8 ≤ c ∨ c + 32 + n ≤ nextAt pv))
    (hnext : nx ≠ 0 →
      inBlock s (prevAt nx) 8 ∧ (prevAt nx + 8 ≤ c ∨ c + 32 + n ≤ prevAt nx)) :
    ∃ s2, cfree s (c + 32) = .ok s2
      ∧ (∀ x, c + 32 ≤ x → x < c + 32 + n → s2.mem x = FREE)
      ∧ (∀ x, (x < c + 32 ∨ c + 32 + n ≤ x) →
          (word s.mem (firstAt s) = c → x < firstAt s ∨ firstAt s + 8 ≤ x) →
          (word s.mem (firstAt s) ≠ c → pv ≠ 0 → x < nextAt pv ∨ nextAt pv + 8 ≤ x) →
          (nx ≠ 0 → x < prevAt nx ∨ prevAt nx + 8 ≤ x) → s2.mem x = s.mem x)
      ∧ ∀ x, c ≤ x → x < c + 32 → s2.mem x = s.mem x := by
  obtain ⟨b, sz, m⟩ := s
  simp only [nsizeAt, prevAt, nextAt, blockAt, firstAt, inBlock, SIZEOF_CONTIGUOUS] at *
  subst hn hpv hnx
  refine ⟨_, cfree_eq b sz m c hlo hhi hint hown
    (fun h1 h2 => by have := hprev h1 h2; omega)
    (fun h1 => by have := hnext h1; omega), ?_, ?_, ?_⟩
  · intro x hx1 hx2
    simp only
    rw [cfreeMem_apply m b c x (fun _ => by omega)
      (fun h1 h2 => by have := hprev h1 h2; omega) (fun h1 => by have := hnext h1; omega),
      stomped_in _ _ _ _ hx1 hx2]
  · intro x hx1 hx2 hx3 hx4
    simp only
    rw [cfreeMem_apply m b c x hx2 (fun h1 h2 => by have := hx3 h1 h2; omega)
      (fun h1 => by have := hx4 h1; omega), stomped_out _ _ _ _ hx1]
  · intro x hx1 hx2
    simp only
    rw [cfreeMem_apply m b c x (fun _ => by omega)
      (fun h1 h2 => by have := hprev h1 h2; omega) (fun h1 => by have := hnext h1; omega),
      stomped_out _ _ _ _ (by omega)]

/-- C14 on the block `threeChunks`, releasing the middle chunk, whose header
at 4200 has size 16, `prev = 4144` and `next = 4260`. -/
theorem release_frame_witness :
    (word threeChunks.mem (nsizeAt 4200) = 16 ∧ word threeChunks.mem (prevAt 4200) = 4144
      ∧ word threeChunks.mem (nextAt 4200) = 4260
      ∧ word threeChunks.mem (blockAt 4200) = threeChunks.base
      ∧ threeChunks.base + 16 ≤ 4200 ∧ 4200 + 32 + 16 ≤ threeChunks.base + 16 + threeChunks.size
      ∧ 16 < 2 ^ 31)
      ∧ ∃ s2, cfree threeChunks (4200 + 32) = .ok s2
        ∧ (∀ x, 4200 + 32 ≤ x → x < 4200 + 32 + 16 → s2.mem x = FREE)
        ∧ (∀ x, (x < 4200 + 32 ∨ 4200 + 32 + 16 ≤ x) →
            (word threeChunks.mem (firstAt threeChunks) = 4200 →
              x < firstAt threeChunks ∨ firstAt threeChunks + 8 ≤ x) →
            (word threeChunks.mem (firstAt threeChunks) ≠ 4200 → 4144 ≠ 0 →
              x < nextAt 4144 ∨ nextAt 4144 + 8 ≤ x) →
            (4260 ≠ 0 → x < prevAt 4260 ∨ prevAt 4260 + 8 ≤ x) →
            s2.mem x = threeChunks.mem x)
        ∧ ∀ x, 4200 ≤ x → x < 4200 + 32 → s2.mem x = threeChunks.mem x :=
  ⟨⟨by decide!, by decide!, by decide!, by decide!, by decide!, by decide!, by norm_num⟩,
    release_frame threeChunks 4200 16 4144 4260 (by decide!) (by decide!) (by decide!)
      (by decide!) (by decide!) (by decide!) (by norm_num) (by decide!) (by decide!)⟩

/-- C15 (termination) at a concrete session: after `make_contiguous(128)` and
`cmalloc(block, 0)`, which returns `block + 80`, the next `cmalloc(block, 0)`
exhausts every bound on the iterations of its `while` loop: the head node at
`block + 48` lies below the new `thingy = block + 112` and is its own `next`. -/
theorem second_allocate_runs_for_ever :
    liveOf (session 0 4096 (fun _ => 0) 128 [Op.allocate 0]) = some [(4176, 0)]
      ∧ ∀ fuel, session fuel 4096 (fun _ => 0) 128 [Op.allocate 0, Op.allocate 0]
          = .error .fuel := by
  constructor
  · decide!
  · intro fuel
    have h1 := make_contiguous_eq 4096 (fun _ => 0) 128 (by decide) (by decide)
    have h2 := cmalloc_fresh fuel 4096 (fun _ => 0) 128 0 (by norm_num) (by decide) (by decide)
      (by decide)
    have h3 := cmalloc_second_diverges fuel
    simp only [session, h1, bind, Except.bind, calls, call, h2, pure, Except.pure, h3]

/-- C16 (placement only on free bytes) at a concrete session: after
`make_contiguous(80)` and `cmalloc(block, 0)`, the byte at `block + 48` is 0,
and the next `cmalloc(block, 0)` places its header at `block + 48` again. -/
theorem placed_on_used_bytes :
    byteOf (session 0 4096 (fun _ => 0) 80 [Op.allocate 0]) 4144 = some 0
      ∧ liveOf (session 0 4096 (fun _ => 0) 80 [Op.allocate 0, Op.allocate 0])
          = some [(4176, 0), (4176, 0)] := by
  refine ⟨?_, ?_⟩ <;> decide!

/-- C17 (insert into an empty list) at a concrete session: after
`make_contiguous(100)` and `cmalloc(block, 0)`, `first` is the new node at
`block + 48` and both its `prev` and its `next` field point to the node
itself. -/
theorem empty_insert_self_links :
    wordOf (session 0 4096 (fun _ => 0) 100 []) 4096 = some 0
      ∧ liveOf (session 0 4096 (fun _ => 0) 100 [Op.allocate 0]) = some [(4176, 0)]
      ∧ wordOf (session 0 4096 (fun _ => 0) 100 [Op.allocate 0]) 4096 = some 4144
      ∧ wordOf (session 0 4096 (fun _ => 0) 100 [Op.allocate 0]) (prevAt 4144) = some 4144
      ∧ wordOf (session 0 4096 (fun _ => 0) 100 [Op.allocate 0]) (nextAt 4144) = some 4144 := by
  refine ⟨?_, ?_, ?_, ?_, ?_⟩ <;> decide!

/-- C18 (first fit) at a concrete input: on the fresh block of 320 bytes,
`block + 48` is a candidate position for a request of 0 bytes (32 free bytes
lie before it), yet `cmalloc(block, 0)` places the header at `block + 304`. -/
theorem first_fit_fails :
    candidate (fresh 4096 (fun _ => 0) 320).mem (4096 + 16) 0 32
      ∧ liveOf (session 0 4096 (fun _ => 0) 320 [Op.allocate 0]) = some [(4096 + 304 + 32, 0)] := by
  refine ⟨?_, ?_⟩ <;> decide!

/-- C18 (first fit) as amended, last fit: when `cmalloc` returns `p`, the
header at `p - 32` comes from a candidate position `base + 16 + q` of the
scan, and no position after it up to `upper_limit` is a candidate. -/
theorem allocate_last_fit (fuel : Nat) (s s1 : Block) (n p ul : Nat)
    (h : cmalloc fuel s n = .ok (s1, p)) (hp : p ≠ 0)
    (hul : loadWord s (upperLimitAt s) = .ok ul) :
    ∃ q, q < ul - (s.base + 16) ∧ candidate s.mem (s.base + 16) n q
      ∧ p - 32 = s.base + 16 + q - n
      ∧ ∀ x, q < x → x < ul - (s.base + 16) → ¬ candidate s.mem (s.base + 16) n x := by
  obtain ⟨ul1, th, h1, h2, h3 | ⟨h3, h4, h5⟩⟩ := cmalloc_ok fuel s s1 n p h
  · exact absurd h3.2 hp
  · rw [hul] at h1
    cases h1
    rw [scan_start] at h2
    rcases scan_last s n (s.base + 16) _ 0 0 th h2 with ⟨h6, _⟩ | ⟨q, _, h7, h8, h9, h10⟩
    · exact absurd h6 h3
    · exact ⟨q, by omega, h8, by omega, fun x hx1 hx2 => h10 x hx1 (by omega)⟩

/-- C18 as amended, on the fresh block of 80 bytes at 4096 with a request of
0 bytes: the header goes to 4144. -/
theorem allocate_last_fit_witness :
    (cmalloc 0 (fresh 4096 (fun _ => 0) 80) 0
        = .ok ({ base := 4096, size := 80,
                 mem := placedMem (fresh 4096 (fun _ => 0) 80).mem 4096 4144 0 }, 4176)
      ∧ 4176 ≠ 0
      ∧ loadWord (fresh 4096 (fun _ => 0) 80) (upperLimitAt (fresh 4096 (fun _ => 0) 80))
        = .ok 4192)
      ∧ ∃ q, q < 4192 - ((fresh 4096 (fun _ => 0) 80).base + 16)
        ∧ candidate (fresh 4096 (fun _ => 0) 80).mem ((fresh 4096 (fun _ => 0) 80).base + 16) 0 q
        ∧ 4176 - 32 = (fresh 4096 (fun _ => 0) 80).base + 16 + q - 0
        ∧ ∀ x, q < x → x < 4192 - ((fresh 4096 (fun _ => 0) 80).base + 16) →
            ¬ candidate (fresh 4096 (fun _ => 0) 80).mem
                ((fresh 4096 (fun _ => 0) 80).base + 16) 0 x :=
  have hul := loadWord_fresh_upper_limit 4096 (fun _ => 0) 80 (by norm_num)
  have h := cmalloc_fresh 0 4096 (fun _ => 0) 80 0 (by norm_num) (by decide) (by decide)
    (by decide)
  ⟨⟨h, by decide, hul⟩,
    allocate_last_fit 0 (fresh 4096 (fun _ => 0) 80) _ 0 4176 4192 h (by decide) hul⟩

/-- C19 (size ceiling): a request of 96 bytes or more returns `NULL` on every
block whose `upper_limit` lies inside the malloc'ed block, however much of it
is free. -/
theorem allocate_size_ceiling (fuel : Nat) (s : Block) (n ul : Nat)
    (hul : loadWord s (upperLimitAt s) = .ok ul)
    (hin : ul ≤ s.base + 16 + s.size) (h : 96 ≤ n) :
    cmalloc fuel s n = .ok (s, 0) :=
  cmalloc_null_of_large fuel s n ul hul hin h

/-- C19 on the fresh block of 1024 bytes at 4096, with a request of 96 bytes. -/
theorem allocate_size_ceiling_witness :
    (loadWord (fresh 4096 (fun _ => 0) 1024) (upperLimitAt (fresh 4096 (fun _ => 0) 1024))
        = .ok 5136
      ∧ 5136 ≤ (fresh 4096 (fun _ => 0) 1024).base + 16 + (fresh 4096 (fun _ => 0) 1024).size
      ∧ 96 ≤ 96)
      ∧ cmalloc 0 (fresh 4096 (fun _ => 0) 1024) 96 = .ok (fresh 4096 (fun _ => 0) 1024, 0) :=
  have hul := loadWord_fresh_upper_limit 4096 (fun _ => 0) 1024 (by norm_num)
  ⟨⟨hul, by norm_num [fresh], by decide⟩,
    allocate_size_ceiling 0 (fresh 4096 (fun _ => 0) 1024) 96 5136 hul (by norm_num [fresh])
      (by decide)⟩

/-- C20 (first allocation): on the fresh block of `U > 16` usable bytes and
for a request `n ≤ 95`, `cmalloc` returns `NULL` when `U ≤ n + 32`; otherwise,
with `K` the largest `k` such that `n + 32 + 256 * k < U`, it returns `NULL`
when `n + 64 + 256 * K > U` and `base + 80 + 256 * K` when not. -/
theorem first_allocation (base : Nat) (m0 : Nat → Nat) (U n fuel : Nat)
    (hbase : base ≠ 0) (haddr : base + U + 16 < 2 ^ 64) (hU : 16 < U) (hn : n ≤ 95) :
    ∃ s, make_contiguous base m0 U = .ok (some s)
      ∧ (U ≤ n + 32 → cmalloc fuel s n = .ok (s, 0))
      ∧ ∀ K, n + 32 + 256 * K < U → U ≤ n + 32 + 256 * (K + 1) →
          (U < n + 64 + 256 * K → cmalloc fuel s n = .ok (s, 0))
          ∧ (n + 64 + 256 * K ≤ U → ∃ s1, cmalloc fuel s n = .ok (s1, base + 80 + 256 * K)) := by
  have hul := loadWord_fresh_upper_limit base m0 U haddr
  have wul := fresh_upper_limit base m0 U haddr
  have hsub : base + U + 16 - (base + 16) = U := by omega
  refine ⟨fresh base m0 U, make_contiguous_eq base m0 U hU hbase, ?_, ?_⟩
  · intro h
    apply cmalloc_null_of_scan fuel _ n _ hul
    simp only [fresh, hsub]
    exact scan_fresh_none base m0 U n h
  · intro K h1 h2
    have hscan := scan_fresh_last base m0 U n K h1 h2 hn
    constructor
    · intro h
      apply cmalloc_null_of_overflow fuel _ n _ (base + 48 + 256 * K) hul
      · simp only [fresh, hsub]
        exact hscan
      · omega
    · intro h
      refine ⟨{ base := base, size := U,
                mem := placedMem (fresh base m0 U).mem base (base + 48 + 256 * K) n }, ?_⟩
      have e : base + 80 + 256 * K = base + 48 + 256 * K + 32 := by omega
      rw [e]
      apply cmalloc_empty fuel base U (fresh base m0 U).mem n (base + 48 + 256 * K)
      · omega
      · omega
      · exact fresh_first base m0 U
      · rw [wul, hsub]
        exact hscan
      · omega
      · omega

/-- C20 on the fresh block of 1024 bytes at 4096, with a request of 10 bytes:
`K = 3` and the call returns `4096 + 80 + 768`. -/
theorem first_allocation_witness :
    (4096 ≠ 0 ∧ 4096 + 1024 + 16 < 2 ^ 64 ∧ 16 < 1024 ∧ 10 ≤ 95)
      ∧ ∃ s, make_contiguous 4096 (fun _ => 0) 1024 = .ok (some s)
        ∧ (1024 ≤ 10 + 32 → cmalloc 0 s 10 = .ok (s, 0))
        ∧ ∀ K, 10 + 32 + 256 * K < 1024 → 1024 ≤ 10 + 32 + 256 * (K + 1) →
            (1024 < 10 + 64 + 256 * K → cmalloc 0 s 10 = .ok (s, 0))
            ∧ (10 + 64 + 256 * K ≤ 1024 → ∃ s1, cmalloc 0 s 10 = .ok (s1, 4096 + 80 + 256 * K)) :=
  ⟨⟨by decide, by norm_num, by decide, by decide⟩,
    first_allocation 4096 (fun _ => 0) 1024 10 0 (by decide) (by norm_num) (by decide)
      (by decide)⟩

end Contiguous
